import Mathlib

/-!
# Hybrid Cipher System

A shallow embedding of `IS Project/Hybrid Cipher System/Hybrid Cipher System.cpp` and theorems
about its four stages (Caesar shift, block reversal, Polybius-square substitution, columnar
transposition) and about the two pipelines that `main` composes from them.

Conventions of the embedding:

* a `std::string` is a `List Char`; the characters the program handles are ASCII, where a C++
  `char` and a Lean `Char` have the same value and the same order;
* `int` values are `Int` (or `Nat` where the source only uses them as sizes and indices); the
  arithmetic of the program is exact on the inputs of the theorems, where no sum leaves the
  range of `int`;
* a function whose loops can fail to end, or whose reads can leave a buffer, returns `Option`,
  with `none` standing for "no result";
* `std::sort` belongs to the C++ library, not to this program: the transposition functions take
  the sorting routine as a parameter, and theorems assume of it what the C++ standard promises.
-/

namespace HybridCipher

/-! ## Caesar shift -/

/-- The `isupper` test of `<cctype>` in the "C" locale. -/
def isupper (c : Char) : Bool := decide (65 ≤ c.toNat) && decide (c.toNat ≤ 90)

/-- The `isalpha` test of `<cctype>` in the "C" locale. -/
def isalpha (c : Char) : Bool := isupper c || (decide (97 ≤ c.toNat) && decide (c.toNat ≤ 122))

/-- Body of the loop of `caesarEncrypt`: `c = char((c - base + shift + 26) % 26 + base)` for a
letter, with the truncating `%` of C++ (`Int.tmod`); other characters are left alone. The
remainder lies between `-25` and `25`, so the new value lies between 40 and 122 and the
conversion to `char` keeps it. The sum is the sum of the program as long as `shift + 51` is in
the range of `int`. -/
def caesarShift (shift : Int) (c : Char) : Char :=
  if isalpha c then
    let base : Int := if isupper c then 65 else 97
    Char.ofNat (Int.toNat (Int.tmod ((c.toNat : Int) - base + shift + 26) 26 + base))
  else c

/-- Source function `caesarEncrypt`. -/
def caesarEncrypt (text : List Char) (shift : Int) : List Char :=
  text.map (caesarShift shift)

/-- Source function `caesarDecrypt`: `return caesarEncrypt(text, -shift)`. -/
def caesarDecrypt (text : List Char) (shift : Int) : List Char :=
  caesarEncrypt text (-shift)

/-! ## Block reversal -/

/-- The call `reverse(buf.begin() + i, buf.begin() + end)`. -/
def reverseRange (buf : List Char) (i e : Nat) : List Char :=
  buf.take i ++ ((buf.drop i).take (e - i)).reverse ++ buf.drop e

/-- The chunk loop of `blockReverse`,
`for (i = 0; i < buf.size(); i += blockSize) reverse(buf.begin() + i, buf.begin() + end)` with
`end = min(buf.size(), i + blockSize)`, run for at most `fuel` tests of the loop condition;
`none` when the fuel runs out before the loop condition fails. -/
def chunkLoop (blockSize : Nat) : Nat → Nat → List Char → Option (List Char)
  | 0, _, _ => none
  | fuel + 1, i, buf =>
    if i < buf.length then
      chunkLoop blockSize fuel (i + blockSize) (reverseRange buf i (min buf.length (i + blockSize)))
    else some buf

/-- The last loop of `blockReverse`: walk over `text`, copy a space, otherwise take `buf[bi++]`;
`none` when `bi` is not an index of `buf`. -/
def reinsert (buf : List Char) : List Char → Nat → Option (List Char)
  | [], _ => some []
  | c :: cs, bi =>
    if c = ' ' then (reinsert buf cs bi).map (fun r => ' ' :: r)
    else
      match buf[bi]? with
      | none => none
      | some b => (reinsert buf cs (bi + 1)).map (fun r => b :: r)

/-- Source function `blockReverse`. The non-space characters go to `buf` (the positions kept in
`spacePos` are never read again), the chunk loop reverses `buf` block by block, and the result is
rebuilt around the spaces of `text`. The chunk loop gets `buf.size() + 1` tests of its condition,
which is all it can use when `blockSize ≥ 1`; with `blockSize = 0` and a non-empty `buf` the
source loops forever and the embedding returns `none`. -/
def blockReverse (text : List Char) (blockSize : Nat) : Option (List Char) :=
  let buf := text.filter (fun c => c ≠ ' ')
  match chunkLoop blockSize (buf.length + 1) 0 buf with
  | none => none
  | some buf => reinsert buf text 0

/-! ## Polybius square substitution -/

/-- The string `content` of `createPolybiusSquare`. -/
def content : List Char := "abcdefghijklmnopqrstuvwxyz0123456789".toList

/-- A grid of characters, `vector<vector<char>>`. -/
abbrev Grid := List (List Char)

/-- The read `grid[i][j]`. Every read of the program is inside the grid; outside it the
embedding answers the filler. -/
def cell (g : Grid) (i j : Nat) : Char := (g.getD i []).getD j 'X'

/-- The write `grid[i][j] = v`. -/
def setCell (g : Grid) (i j : Nat) (v : Char) : Grid := g.set i ((g.getD i []).set j v)

/-- Body of the inner loop of `createPolybiusSquare` on the state `(square, idx)`:
`square[i][j] = content[idx++]`. -/
def squareStep (i : Nat) (s : Grid × Nat) (j : Nat) : Grid × Nat :=
  (setCell s.1 i j (content.getD s.2 (Char.ofNat 0)), s.2 + 1)

/-- Source function `createPolybiusSquare`: the square starts as six rows of six zero
characters, `idx` starts at 0, and the two loops over `i` and `j` store `content[idx++]` in
`square[i][j]`; the argument is not used. -/
def createPolybiusSquare (_subKey : List Char) : Grid :=
  ((List.range 6).foldl (fun s i => (List.range 6).foldl (squareStep i) s)
    (List.replicate 6 (List.replicate 6 (Char.ofNat 0)), 0)).1

/-- The read `label[i]` of a `const std::string&` (the terminating zero at `i = size()`). -/
def labelAt (label : List Char) (i : Nat) : Char := label.getD i (Char.ofNat 0)

/-- The two inner loops of `substitutionEncrypt` for one character `c`: every cell equal to `c`
appends `label[i]` and `label[j]`. -/
def encodeChar (square : Grid) (label : List Char) (c : Char) : List Char :=
  (List.range 6).flatMap fun i => (List.range 6).flatMap fun j =>
    if cell square i j = c then [labelAt label i, labelAt label j] else []

/-- Source function `substitutionEncrypt`. -/
def substitutionEncrypt (text : List Char) (square : Grid) (label : List Char) : List Char :=
  text.flatMap (encodeChar square label)

/-- `label.find(ch)`: the first index of `ch` in `label`, `none` for `npos`. -/
def labelFind (label : List Char) (ch : Char) : Option Nat :=
  if ch ∈ label then some (label.indexOf ch) else none

/-- Body of the loop of `substitutionDecrypt` for the pair `text[i]`, `text[i + 1]`. -/
def decodePair (square : Grid) (label : List Char) (a b : Char) : List Char :=
  match labelFind label a, labelFind label b with
  | some row, some col => [cell square row col]
  | _, _ => []

/-- Source function `substitutionDecrypt`: the loop advances by two; at an odd length the last
read `text[i + 1]` is the terminating zero of the string. -/
def substitutionDecrypt : List Char → Grid → List Char → List Char
  | [], _, _ => []
  | [a], square, label => decodePair square label a (Char.ofNat 0)
  | a :: b :: rest, square, label =>
    decodePair square label a b ++ substitutionDecrypt rest square label

/-! ## Columnar transposition -/

/-- The type of the library routine `std::sort` as the program uses it: a comparison and a
sequence of column indices in, the rearranged sequence out. -/
abbrev SortFn := (Nat → Nat → Bool) → List Nat → List Nat

/-- A strict weak ordering, which is what `std::sort` requires of its comparison. -/
def StrictWeak (comp : Nat → Nat → Bool) : Prop :=
  (∀ a, comp a a = false) ∧
  (∀ a b c, comp a b = true → comp b c = true → comp a c = true) ∧
  (∀ a b c, comp a b = true → comp a c = true ∨ comp c b = true)

/-- What the C++ standard promises of `std::sort` when the comparison is a strict weak
ordering: the result is a rearrangement of the input in which no element is followed by one that
compares less. The relative order of elements that compare equal is left open. -/
structure StdSort (sort : SortFn) : Prop where
  perm : ∀ comp l, StrictWeak comp → (sort comp l).Perm l
  sorted : ∀ comp l, StrictWeak comp → (sort comp l).Pairwise (fun a b => comp b a = false)

/-- The lambda `[&](int a, int b) { return keyword[a] < keyword[b]; }`. -/
def keyLess (keyword : List Char) (a b : Nat) : Bool :=
  decide (labelAt keyword a < labelAt keyword b)

/-- The vector `order`: `iota` fills it with `0 .. cols - 1`, `sort` rearranges it. -/
def columnOrder (sort : SortFn) (keyword : List Char) : List Nat :=
  sort (keyLess keyword) (List.range keyword.length)

/-- The grid `vector<vector<char>> grid(rows, vector<char>(cols, 'X'))`. -/
def newGrid (rows cols : Nat) : Grid := List.replicate rows (List.replicate cols 'X')

/-- A grid of `rows` rows with `cols` cells each. -/
def Shaped (rows cols : Nat) (g : Grid) : Prop :=
  g.length = rows ∧ ∀ r, r ∈ g → r.length = cols

/-- The loop `for (i = 0; i < size; ++i) grid[i / cols][i % cols] = intermediate[i]`. -/
def fillRows (cols : Nat) (intermediate : List Char) (grid : Grid) : Grid :=
  (List.range intermediate.length).foldl
    (fun g i => setCell g (i / cols) (i % cols) (intermediate.getD i 'X')) grid

/-- Source function `transpositionEncrypt`. With an empty keyword the source divides by zero;
the theorems below are about non-empty keywords. -/
def transpositionEncrypt (sort : SortFn) (keyword intermediate : List Char) : List Char :=
  let cols := keyword.length
  let rows := (intermediate.length + cols - 1) / cols
  let grid := fillRows cols intermediate (newGrid rows cols)
  let order := columnOrder sort keyword
  order.flatMap fun idx => (List.range rows).map fun i => cell grid i idx

/-- Body of the inner loop of `transpositionDecrypt` on the state `(grid, k)`:
`if (k < cipher.size()) grid[i][idx] = cipher[k++]`. -/
def fillStep (cipher : List Char) (idx : Nat) (s : Grid × Nat) (i : Nat) : Grid × Nat :=
  if s.2 < cipher.length then (setCell s.1 i idx (cipher.getD s.2 'X'), s.2 + 1) else s

/-- The two nested loops of `transpositionDecrypt` that fill the grid column by column. -/
def fillColumns (cipher : List Char) (rows : Nat) (order : List Nat) (s : Grid × Nat) :
    Grid × Nat :=
  order.foldl (fun s idx => (List.range rows).foldl (fillStep cipher idx) s) s

/-- Source function `transpositionDecrypt` (the call that prints the table has no effect on the
result). -/
def transpositionDecrypt (sort : SortFn) (keyword cipher : List Char) : List Char :=
  let cols := keyword.length
  let rows := (cipher.length + cols - 1) / cols
  let order := columnOrder sort keyword
  let grid := (fillColumns cipher rows order (newGrid rows cols, 0)).1
  (List.range rows).flatMap fun i => (List.range cols).map fun j => cell grid i j

/-- Insertion of `x` into a sorted list, after every element that does not compare greater. -/
def insertSorted (comp : Nat → Nat → Bool) (x : Nat) : List Nat → List Nat
  | [] => [x]
  | y :: ys => if comp x y then x :: y :: ys else y :: insertSorted comp x ys

/-- Insertion sort from left to right, a sorting routine that meets `StdSort` and keeps the
relative order of elements that compare equal. -/
def stableSort : SortFn := fun comp l => l.foldl (fun acc x => insertSorted comp x acc) []

/-! ## The sorting routine of GNU libstdc++

`std::sort` as `bits/stl_algo.h` and `bits/stl_heap.h` of GNU libstdc++ implement it: an
introsort loop that partitions ranges of more than 16 elements around a median of three (and
falls back to heap sort when the depth limit is used up), followed by a final insertion sort.
Iterators are positions in the sequence; the loops that the library runs without a bound check
get the length of the sequence as fuel. -/

/-- The call `std::iter_swap(first + i, first + j)` on the sequence `v`. -/
def swapAt (v : List Nat) (i j : Nat) : List Nat := (v.set i (v.getD j 0)).set j (v.getD i 0)

/-- The loop of `__unguarded_linear_insert`: while `val` compares less than the element before
position `last`, that element moves up; `val` lands where the loop stops. -/
def linearInsert (comp : Nat → Nat → Bool) (val : Nat) : Nat → List Nat → List Nat
  | 0, v => v.set 0 val
  | last + 1, v =>
    if comp val (v.getD last 0) then linearInsert comp val last (v.set (last + 1) (v.getD last 0))
    else v.set (last + 1) val

/-- `__unguarded_linear_insert(last, comp)`. -/
def unguardedLinearInsert (comp : Nat → Nat → Bool) (v : List Nat) (last : Nat) : List Nat :=
  linearInsert comp (v.getD last 0) last v

/-- Body of the loop of `__insertion_sort(first, last, comp)` at position `i`. -/
def insertionStep (comp : Nat → Nat → Bool) (first : Nat) (v : List Nat) (i : Nat) : List Nat :=
  if comp (v.getD i 0) (v.getD first 0) then
    v.take first ++ v.getD i 0 :: (v.drop first).take (i - first) ++ v.drop (i + 1)
  else unguardedLinearInsert comp v i

/-- `__insertion_sort(first, last, comp)`. -/
def insertionSort (comp : Nat → Nat → Bool) (v : List Nat) (first last : Nat) : List Nat :=
  ((List.range (last - (first + 1))).map fun k => first + 1 + k).foldl (insertionStep comp first) v

/-- `__unguarded_insertion_sort(first, last, comp)`. -/
def unguardedInsertionSort (comp : Nat → Nat → Bool) (v : List Nat) (first last : Nat) :
    List Nat :=
  ((List.range (last - first)).map fun k => first + k).foldl (unguardedLinearInsert comp) v

/-- `__final_insertion_sort(first, last, comp)`, with `_S_threshold = 16`. -/
def finalInsertionSort (comp : Nat → Nat → Bool) (v : List Nat) (first last : Nat) : List Nat :=
  if last - first > 16 then
    unguardedInsertionSort comp (insertionSort comp v first (first + 16)) (first + 16) last
  else insertionSort comp v first last

/-- `__move_median_to_first(result, a, b, c, comp)`. -/
def moveMedianToFirst (comp : Nat → Nat → Bool) (v : List Nat) (result a b c : Nat) : List Nat :=
  let lt := fun i j => comp (v.getD i 0) (v.getD j 0)
  if lt a b then
    if lt b c then swapAt v result b
    else if lt a c then swapAt v result c
    else swapAt v result a
  else if lt a c then swapAt v result a
  else if lt b c then swapAt v result c
  else swapAt v result b

/-- The loop `while (comp(first, pivot)) ++first` of `__unguarded_partition`. -/
def scanUp (comp : Nat → Nat → Bool) (v : List Nat) (pivot : Nat) : Nat → Nat → Nat
  | 0, first => first
  | fuel + 1, first =>
    if comp (v.getD first 0) (v.getD pivot 0) then scanUp comp v pivot fuel (first + 1) else first

/-- The loop `while (comp(pivot, last)) --last` of `__unguarded_partition`. -/
def scanDown (comp : Nat → Nat → Bool) (v : List Nat) (pivot : Nat) : Nat → Nat
  | 0 => 0
  | last + 1 =>
    if comp (v.getD pivot 0) (v.getD (last + 1) 0) then scanDown comp v pivot last else last + 1

/-- `__unguarded_partition(first, last, pivot, comp)`: the rearranged sequence and the cut. -/
def unguardedPartition (comp : Nat → Nat → Bool) :
    Nat → List Nat → Nat → Nat → Nat → List Nat × Nat
  | 0, v, first, _, _ => (v, first)
  | fuel + 1, v, first, last, pivot =>
    let first := scanUp comp v pivot v.length first
    let last := scanDown comp v pivot (last - 1)
    if first < last then unguardedPartition comp fuel (swapAt v first last) (first + 1) last pivot
    else (v, first)

/-- The loop of `__push_heap(first, holeIndex, topIndex, value, comp)`. -/
def pushHeap (comp : Nat → Nat → Bool) (first topIndex value : Nat) :
    Nat → List Nat → Nat → List Nat
  | 0, v, hole => v.set (first + hole) value
  | fuel + 1, v, hole =>
    let parent := (hole - 1) / 2
    if hole > topIndex && comp (v.getD (first + parent) 0) value then
      pushHeap comp first topIndex value fuel (v.set (first + hole) (v.getD (first + parent) 0))
        parent
    else v.set (first + hole) value

/-- The first loop of `__adjust_heap`: the hole moves down to the larger child. -/
def siftDown (comp : Nat → Nat → Bool) (first len : Nat) :
    Nat → List Nat → Nat → Nat → List Nat × Nat × Nat
  | 0, v, hole, child => (v, hole, child)
  | fuel + 1, v, hole, child =>
    if child < (len - 1) / 2 then
      let c := 2 * (child + 1)
      let c := if comp (v.getD (first + c) 0) (v.getD (first + (c - 1)) 0) then c - 1 else c
      siftDown comp first len fuel (v.set (first + hole) (v.getD (first + c) 0)) c c
    else (v, hole, child)

/-- `__adjust_heap(first, holeIndex, len, value, comp)`. -/
def adjustHeap (comp : Nat → Nat → Bool) (v : List Nat) (first holeIndex len value : Nat) :
    List Nat :=
  match siftDown comp first len len v holeIndex holeIndex with
  | (v, hole, child) =>
    if len % 2 = 0 ∧ child = (len - 2) / 2 then
      let c := 2 * (child + 1)
      pushHeap comp first holeIndex value len (v.set (first + hole) (v.getD (first + (c - 1)) 0))
        (c - 1)
    else pushHeap comp first holeIndex value len v hole

/-- `__pop_heap(first, last, result, comp)`. -/
def popHeap (comp : Nat → Nat → Bool) (v : List Nat) (first last result : Nat) : List Nat :=
  adjustHeap comp (v.set result (v.getD first 0)) first 0 (last - first) (v.getD result 0)

/-- `__make_heap(first, last, comp)`. -/
def makeHeap (comp : Nat → Nat → Bool) (v : List Nat) (first last : Nat) : List Nat :=
  if last - first < 2 then v
  else
    (List.range ((last - first - 2) / 2 + 1)).reverse.foldl
      (fun v parent => adjustHeap comp v first parent (last - first) (v.getD (first + parent) 0)) v

/-- `__sort_heap(first, last, comp)`. -/
def sortHeap (comp : Nat → Nat → Bool) (v : List Nat) (first last : Nat) : List Nat :=
  (List.range (last - first - 1)).foldl
    (fun v k => popHeap comp v first (last - 1 - k) (last - 1 - k)) v

/-- `__partial_sort(first, last, last, comp)`: with `middle = last` the loop of `__heap_select`
is empty, which leaves `__make_heap` and `__sort_heap`. -/
def heapSortRange (comp : Nat → Nat → Bool) (v : List Nat) (first last : Nat) : List Nat :=
  sortHeap comp (makeHeap comp v first last) first last

/-- `__introsort_loop(first, last, depth_limit, comp)`. -/
def introsortLoop (comp : Nat → Nat → Bool) : Nat → List Nat → Nat → Nat → Nat → List Nat
  | 0, v, _, _, _ => v
  | fuel + 1, v, first, last, depthLimit =>
    if last - first > 16 then
      if depthLimit = 0 then heapSortRange comp v first last
      else
        let v1 := moveMedianToFirst comp v first (first + 1) (first + (last - first) / 2)
          (last - 1)
        match unguardedPartition comp v1.length v1 (first + 1) last first with
        | (v2, cut) =>
          introsortLoop comp fuel (introsortLoop comp fuel v2 cut last (depthLimit - 1))
            first cut (depthLimit - 1)
    else v

/-- The loop behind `std::__lg`: the number of times `n` can be halved before it reaches 1. -/
def lgLoop : Nat → Nat → Nat
  | 0, _ => 0
  | fuel + 1, n => if n ≤ 1 then 0 else lgLoop fuel (n / 2) + 1

/-- `std::__lg(n)`, the floor of the binary logarithm of `n`. -/
def lg (n : Nat) : Nat := lgLoop n n

/-- The routine `std::sort` of GNU libstdc++ (`__sort` in `bits/stl_algo.h`). -/
def gnuSort : SortFn := fun comp l =>
  if l = [] then l
  else finalInsertionSort comp
    (introsortLoop comp l.length l 0 l.length (lg l.length * 2)) 0 l.length

/-! ## The two pipelines of `main` -/

/-- The encryption branch of `main` (`mode == "e"`), from the plaintext and the four parameters
to the final ciphertext. -/
def mainEncrypt (sort : SortFn) (text : List Char) (shift : Int) (blockSize : Nat)
    (subKey keyword : List Char) : Option (List Char) :=
  let caesar := caesarEncrypt text shift
  match blockReverse caesar blockSize with
  | none => none
  | some reversed =>
    let square := createPolybiusSquare subKey
    let substituted := substitutionEncrypt reversed square subKey
    some (transpositionEncrypt sort keyword substituted)

/-- The decryption branch of `main` (`mode == "d"`), from the ciphertext and the four parameters
to the final decrypted text. -/
def mainDecrypt (sort : SortFn) (cipher : List Char) (shift : Int) (blockSize : Nat)
    (subKey keyword : List Char) : Option (List Char) :=
  let square := createPolybiusSquare subKey
  let decryptedTrans := transpositionDecrypt sort keyword cipher
  let decryptedSub := substitutionDecrypt decryptedTrans square subKey
  match blockReverse decryptedSub blockSize with
  | none => none
  | some decryptedBlock => some (caesarDecrypt decryptedBlock shift)

/-! ## Caesar shift: lemmas -/

theorem toNat_ofNat_small (n : Nat) (h : n < 55296) : (Char.ofNat n).toNat = n := by
  have hv : n.isValidChar := Or.inl h
  rw [Char.ofNat, dif_pos hv]
  rfl

theorem char_eq_of_toNat {a b : Char} (h : a.toNat = b.toNat) : a = b := by
  rw [← Char.ofNat_toNat a, ← Char.ofNat_toNat b, h]

theorem isupper_iff (c : Char) : isupper c = true ↔ 65 ≤ c.toNat ∧ c.toNat ≤ 90 := by
  simp [isupper]

theorem isalpha_iff (c : Char) :
    isalpha c = true ↔ (65 ≤ c.toNat ∧ c.toNat ≤ 90) ∨ (97 ≤ c.toNat ∧ c.toNat ≤ 122) := by
  simp [isalpha, isupper]

/-- For a shift of at least `-26` the dividend is not negative, and an upper-case letter at
position `p` goes to the upper-case letter at position `(p + shift) mod 26`. -/
theorem caesarShift_upper (shift : Int) (c : Char) (h1 : 65 ≤ c.toNat) (h2 : c.toNat ≤ 90)
    (hs : -26 ≤ shift) :
    ((caesarShift shift c).toNat : Int) = ((c.toNat : Int) - 65 + shift) % 26 + 65 := by
  have ha : isalpha c = true := (isalpha_iff c).2 (Or.inl ⟨h1, h2⟩)
  have hu : isupper c = true := (isupper_iff c).2 ⟨h1, h2⟩
  simp only [caesarShift, ha, hu, if_true]
  rw [Int.tmod_eq_emod (by omega) (by omega)]
  rw [toNat_ofNat_small _ (by omega)]
  omega

theorem caesarShift_lower (shift : Int) (c : Char) (h1 : 97 ≤ c.toNat) (h2 : c.toNat ≤ 122)
    (hs : -26 ≤ shift) :
    ((caesarShift shift c).toNat : Int) = ((c.toNat : Int) - 97 + shift) % 26 + 97 := by
  have ha : isalpha c = true := (isalpha_iff c).2 (Or.inr ⟨h1, h2⟩)
  have hu : isupper c = false := by
    cases h : isupper c
    · rfl
    · have := (isupper_iff c).1 h
      omega
  simp only [caesarShift, ha, hu, if_true]
  simp only [Bool.false_eq_true, if_false]
  rw [Int.tmod_eq_emod (by omega) (by omega)]
  rw [toNat_ofNat_small _ (by omega)]
  omega

theorem caesarShift_other (shift : Int) (c : Char) (h : isalpha c = false) :
    caesarShift shift c = c := by
  simp [caesarShift, h]

theorem caesarShift_inverse (shift : Int) (c : Char) (h1 : -26 ≤ shift) (h2 : shift ≤ 26) :
    caesarShift (-shift) (caesarShift shift c) = c := by
  cases ha : isalpha c
  · rw [caesarShift_other shift c ha, caesarShift_other _ c ha]
  · rcases (isalpha_iff c).1 ha with ⟨l, u⟩ | ⟨l, u⟩
    · have e1 := caesarShift_upper shift c l u h1
      have e2 := caesarShift_upper (-shift) (caesarShift shift c) (by omega) (by omega) (by omega)
      apply char_eq_of_toNat
      omega
    · have e1 := caesarShift_lower shift c l u h1
      have e2 := caesarShift_lower (-shift) (caesarShift shift c) (by omega) (by omega) (by omega)
      apply char_eq_of_toNat
      omega

theorem caesar_roundtrip_small (text : List Char) (shift : Int) (h1 : -26 ≤ shift)
    (h2 : shift ≤ 26) : caesarDecrypt (caesarEncrypt text shift) shift = text := by
  simp only [caesarDecrypt, caesarEncrypt, List.map_map]
  conv_rhs => rw [← List.map_id text]
  apply List.map_congr_left
  intro c _
  exact caesarShift_inverse shift c h1 h2

/-! ## Block reversal: lemmas -/

theorem reverseRange_append (p s : List Char) (b : Nat) :
    reverseRange (p ++ s) p.length (min (p ++ s).length (p.length + b))
      = p ++ ((s.take b).reverse ++ s.drop b) := by
  have he : min (p ++ s).length (p.length + b) = p.length + min s.length b := by
    simp only [List.length_append]; omega
  rw [he]
  unfold reverseRange
  have h1 : (p ++ s).take p.length = p := by simp
  have h2 : (p ++ s).drop p.length = s := by simp
  have h3 : (p ++ s).drop (p.length + min s.length b) = s.drop b := by
    rw [List.drop_append]
    rcases Nat.le_total s.length b with h | h
    · rw [Nat.min_eq_left h, List.drop_of_length_le (Nat.le_refl _), List.drop_of_length_le h]
    · rw [Nat.min_eq_right h]
  have h4 : s.take (p.length + min s.length b - p.length) = s.take b := by
    rw [Nat.add_sub_cancel_left]
    rcases Nat.le_total s.length b with h | h
    · rw [Nat.min_eq_left h, List.take_of_length_le (Nat.le_refl _), List.take_of_length_le h]
    · rw [Nat.min_eq_right h]
  rw [h1, h2, h3, h4, List.append_assoc]

theorem chunkLoop_step (b fuel : Nat) (p s : List Char) (hs : s ≠ []) :
    chunkLoop b (fuel + 1) p.length (p ++ s)
      = chunkLoop b fuel (p.length + b) (p ++ ((s.take b).reverse ++ s.drop b)) := by
  have hlt : p.length < (p ++ s).length := by
    have := List.length_pos.2 hs
    simp only [List.length_append]; omega
  rw [chunkLoop, if_pos hlt, reverseRange_append]

theorem chunkLoop_exit (b fuel i : Nat) (buf : List Char) (h : buf.length ≤ i) :
    chunkLoop b (fuel + 1) i buf = some buf := by
  rw [chunkLoop, if_neg (by omega)]

/-- With `blockSize ≥ 1` and enough fuel the chunk loop ends; it keeps the length and the
characters of the part it works on, and running it again restores that part. -/
theorem chunkLoop_spec (b : Nat) (hb : 1 ≤ b) :
    ∀ (fuel : Nat) (p s : List Char), s.length + 1 ≤ fuel →
      ∃ r, chunkLoop b fuel p.length (p ++ s) = some (p ++ r) ∧ r.length = s.length ∧
        (∀ c, c ∈ r → c ∈ s) ∧
        (∀ q : List Char, chunkLoop b fuel q.length (q ++ r) = some (q ++ s)) := by
  intro fuel
  induction fuel with
  | zero => intro p s h; omega
  | succ fuel ih =>
    intro p s hf
    by_cases hs : s = []
    · subst hs
      refine ⟨[], ?_, rfl, fun c h => h, fun q => ?_⟩
      · exact chunkLoop_exit b fuel _ _ (by simp)
      · exact chunkLoop_exit b fuel _ _ (by simp)
    · have hpos := List.length_pos.2 hs
      rcases Nat.lt_or_ge s.length b with hlt | hge
      · -- a single, short block
        have hd : s.drop b = [] := List.drop_of_length_le (Nat.le_of_lt hlt)
        have ht : s.take b = s := List.take_of_length_le (Nat.le_of_lt hlt)
        obtain ⟨fuel, rfl⟩ : ∃ f, fuel = f + 1 := ⟨fuel - 1, by omega⟩
        refine ⟨s.reverse, ?_, by simp, fun c h => List.mem_reverse.1 h, fun q => ?_⟩
        · rw [chunkLoop_step b _ p s hs, hd, ht, List.append_nil]
          exact chunkLoop_exit b fuel _ _ (by simp; omega)
        · have hr : s.reverse ≠ [] := by simpa using hs
          have hd2 : s.reverse.drop b = [] := List.drop_of_length_le (by simp; omega)
          have ht2 : s.reverse.take b = s.reverse := List.take_of_length_le (by simp; omega)
          rw [chunkLoop_step b _ q s.reverse hr, hd2, ht2, List.append_nil, List.reverse_reverse]
          exact chunkLoop_exit b fuel _ _ (by simp; omega)
      · -- a full block, then the rest
        have hlen : (s.take b).reverse.length = b := by simp; omega
        obtain ⟨r, h1, h2, h3, h4⟩ := ih (p ++ (s.take b).reverse) (s.drop b)
          (by simp only [List.length_drop]; omega)
        refine ⟨(s.take b).reverse ++ r, ?_, ?_, ?_, fun q => ?_⟩
        · rw [chunkLoop_step b _ p s hs]
          have := h1
          simp only [List.length_append, hlen, List.append_assoc] at this
          exact this
        · simp only [List.length_append, hlen, h2, List.length_drop]; omega
        · intro c hc
          rcases List.mem_append.1 hc with h | h
          · exact List.mem_of_mem_take (List.mem_reverse.1 h)
          · exact List.mem_of_mem_drop (h3 c h)
        · have hne : (s.take b).reverse ++ r ≠ [] := by
            intro h
            have := congrArg List.length h
            simp only [List.length_append, hlen, List.length_nil] at this
            omega
          have ht : ((s.take b).reverse ++ r).take b = (s.take b).reverse := by
            rw [List.take_append_of_le_length (by omega), List.take_of_length_le (by omega)]
          have hd : ((s.take b).reverse ++ r).drop b = r := by
            exact List.drop_left' hlen
          rw [chunkLoop_step b _ q _ hne, ht, hd, List.reverse_reverse]
          have := h4 (q ++ s.take b)
          have hl2 : (s.take b).length = b := by simp; omega
          simp only [List.length_append, hl2, List.append_assoc, List.take_append_drop] at this
          exact this


theorem reinsert_filter (text : List Char) :
    ∀ p : List Char, reinsert (p ++ text.filter (fun c => c ≠ ' ')) text p.length = some text := by
  induction text with
  | nil => intro p; rfl
  | cons c cs ih =>
    intro p
    by_cases hc : c = ' '
    · subst hc
      have := ih p
      simp only [ne_eq, not_true_eq_false, decide_False, Bool.false_eq_true, not_false_eq_true,
        List.filter_cons_of_neg] at this ⊢
      simp only [reinsert, if_true, this, Option.map_some']
    · have hf : (c :: cs).filter (fun c => c ≠ ' ') = c :: cs.filter (fun c => c ≠ ' ') := by
        simp [hc]
      have := ih (p ++ [c])
      simp only [List.length_append, List.length_singleton, List.append_assoc,
        List.singleton_append] at this
      rw [hf]
      simp only [reinsert, if_neg hc, List.getElem?_append_right (Nat.le_refl _), Nat.sub_self,
        List.getElem?_cons_zero, this, Option.map_some']

/-- Reinsertion succeeds when the buffer holds a character for every non-space position, and
the non-space characters of the result are the ones taken from the buffer. -/
theorem filter_reinsert (text : List Char) :
    ∀ p s : List Char, (∀ c, c ∈ s → c ≠ ' ') →
      s.length = (text.filter (fun c => c ≠ ' ')).length →
      ∃ r, reinsert (p ++ s) text p.length = some r ∧ r.filter (fun c => c ≠ ' ') = s ∧
        ∀ buf bi, reinsert buf r bi = reinsert buf text bi := by
  induction text with
  | nil =>
    intro p s _ hl
    have : s = [] := List.length_eq_zero.1 (by simpa using hl)
    subst this
    exact ⟨[], rfl, rfl, fun _ _ => rfl⟩
  | cons c cs ih =>
    intro p s hs hl
    by_cases hc : c = ' '
    · subst hc
      have hl2 : s.length = (cs.filter (fun c => c ≠ ' ')).length := by simpa using hl
      obtain ⟨r, h1, h2, h3⟩ := ih p s hs hl2
      refine ⟨' ' :: r, ?_, ?_, fun buf bi => ?_⟩
      · simp only [reinsert, if_true, h1, Option.map_some']
      · simpa using h2
      · simp only [reinsert, if_true, h3]
    · have hf : (c :: cs).filter (fun c => c ≠ ' ') = c :: cs.filter (fun c => c ≠ ' ') := by
        simp [hc]
      rw [hf] at hl
      cases s with
      | nil => simp at hl
      | cons x xs =>
        have hx : x ≠ ' ' := hs x (List.mem_cons_self _ _)
        obtain ⟨r, h1, h2, h3⟩ := ih (p ++ [x]) xs
          (fun c h => hs c (List.mem_cons_of_mem _ h)) (by simpa using hl)
        simp only [List.length_append, List.length_singleton, List.append_assoc,
          List.singleton_append] at h1
        refine ⟨x :: r, ?_, ?_, fun buf bi => ?_⟩
        · simp only [reinsert, if_neg hc, List.getElem?_append_right (Nat.le_refl _),
            Nat.sub_self, List.getElem?_cons_zero, h1, Option.map_some']
        · rw [List.filter_cons_of_pos (by simp [hx]), h2]
        · simp only [reinsert, if_neg hc, if_neg hx, h3]

theorem blockReverse_spec (text : List Char) (blockSize : Nat) (hb : 1 ≤ blockSize) :
    ∃ r, blockReverse text blockSize = some r ∧ blockReverse r blockSize = some text := by
  obtain ⟨buf, h1, h2, h3, h4⟩ := chunkLoop_spec blockSize hb
    ((text.filter (fun c => c ≠ ' ')).length + 1) [] (text.filter (fun c => c ≠ ' '))
    (Nat.le_refl _)
  have hns : ∀ c, c ∈ buf → c ≠ ' ' := fun c hc => by
    simpa using (List.mem_filter.1 (h3 c hc)).2
  obtain ⟨r, g1, g2, g3⟩ := filter_reinsert text [] buf hns h2
  simp only [List.nil_append, List.length_nil] at h1 g1
  refine ⟨r, ?_, ?_⟩
  · simp only [blockReverse, h1, g1]
  · have h5 := h4 []
    simp only [List.nil_append, List.length_nil] at h5
    have h6 := reinsert_filter text []
    simp only [List.nil_append, List.length_nil] at h6
    simp only [blockReverse, g2, h2, h5, g3, h6]

/-! ## Substitution: lemmas -/

theorem content_length : content.length = 36 := by decide

theorem encodeChar_getD (subKey label : List Char) (n : Nat) (hn : n < 36) :
    encodeChar (createPolybiusSquare subKey) label (content.getD n 'X')
      = [labelAt label (n / 6), labelAt label (n % 6)] := by
  interval_cases n <;> rfl

theorem cell_square (subKey : List Char) (n : Nat) (hn : n < 36) :
    cell (createPolybiusSquare subKey) (n / 6) (n % 6) = content.getD n 'X' := by
  interval_cases n <;> rfl

theorem labelFind_labelAt (label : List Char) (hd : label.Nodup) (i : Nat)
    (hi : i < label.length) : labelFind label (labelAt label i) = some i := by
  have h1 : labelAt label i = label[i] := by
    simp [labelAt, List.getD_eq_getElem?_getD, List.getElem?_eq_getElem hi]
  rw [h1, labelFind, if_pos (List.getElem_mem _), List.indexOf_getElem hd]

theorem decodePair_labels (square : Grid) (label : List Char) (hd : label.Nodup) (i j : Nat)
    (hi : i < label.length) (hj : j < label.length) :
    decodePair square label (labelAt label i) (labelAt label j) = [cell square i j] := by
  simp only [decodePair, labelFind_labelAt label hd i hi, labelFind_labelAt label hd j hj]

theorem decrypt_encrypt_substitution (text label : List Char)
    (htext : ∀ c, c ∈ text → c ∈ content) (hlen : label.length = 6) (hd : label.Nodup) :
    substitutionDecrypt (substitutionEncrypt text (createPolybiusSquare label) label)
      (createPolybiusSquare label) label = text := by
  induction text with
  | nil => rfl
  | cons c cs ih =>
    obtain ⟨n, hn, rfl⟩ := List.getElem_of_mem (htext c (List.mem_cons_self _ _))
    have hn36 : n < 36 := by simpa [content_length] using hn
    have hc : content[n] = content.getD n 'X' := by
      simp [List.getD_eq_getElem?_getD, List.getElem?_eq_getElem hn]
    have h6 : n / 6 < label.length := by omega
    have h6' : n % 6 < label.length := by omega
    rw [hc] at htext ⊢
    simp only [substitutionEncrypt, List.flatMap_cons, encodeChar_getD label label n hn36,
      List.cons_append, List.nil_append, substitutionDecrypt]
    rw [decodePair_labels _ label hd _ _ h6 h6', cell_square label n hn36]
    have := ih (fun c h => htext c (List.mem_cons_of_mem _ h))
    simp only [substitutionEncrypt] at this
    rw [this]
    rfl

/-! ## Transposition: lemmas -/

theorem shaped_newGrid (rows cols : Nat) : Shaped rows cols (newGrid rows cols) := by
  refine ⟨by simp [newGrid], fun r hr => ?_⟩
  rw [newGrid, List.mem_replicate] at hr
  rw [hr.2, List.length_replicate]

theorem cell_newGrid (rows cols i j : Nat) : cell (newGrid rows cols) i j = 'X' := by
  unfold cell newGrid
  simp only [List.getD_eq_getElem?_getD, List.getElem?_replicate]
  by_cases hi : i < rows
  · simp only [hi, if_true, Option.getD_some, List.getElem?_replicate]
    by_cases hj : j < cols <;> simp [hj]
  · simp [hi]

theorem getD_row {rows cols : Nat} {g : Grid} (h : Shaped rows cols g) {i : Nat}
    (hi : i < rows) : (g.getD i []).length = cols := by
  have hi2 : i < g.length := by rw [h.1]; exact hi
  have : g.getD i [] = g[i] := by
    simp [List.getD_eq_getElem?_getD, List.getElem?_eq_getElem hi2]
  rw [this]
  exact h.2 _ (List.getElem_mem _)

theorem shaped_setCell {rows cols : Nat} {g : Grid} (h : Shaped rows cols g) (i j : Nat)
    (v : Char) : Shaped rows cols (setCell g i j v) := by
  by_cases hi : i < rows
  · refine ⟨by simp [setCell, h.1], fun r hr => ?_⟩
    rcases List.mem_or_eq_of_mem_set hr with h1 | h1
    · exact h.2 r h1
    · rw [h1, List.length_set, getD_row h hi]
  · have : setCell g i j v = g := List.set_eq_of_length_le (by rw [h.1]; omega)
    rw [this]; exact h

theorem cell_setCell {rows cols : Nat} {g : Grid} (h : Shaped rows cols g) {i j : Nat}
    (hi : i < rows) (hj : j < cols) (v : Char) (i2 j2 : Nat) :
    cell (setCell g i j v) i2 j2 = if i2 = i ∧ j2 = j then v else cell g i2 j2 := by
  have hi2 : i < g.length := by rw [h.1]; exact hi
  have hrow := getD_row h hi
  unfold cell setCell
  simp only [List.getD_eq_getElem?_getD] at hrow ⊢
  by_cases e1 : i2 = i
  · subst e1
    rw [List.getElem?_set_self hi2]
    simp only [Option.getD_some, true_and]
    by_cases e2 : j2 = j
    · subst e2
      rw [List.getElem?_set_self (by omega)]
      simp
    · rw [List.getElem?_set_ne (fun h => e2 h.symm)]
      simp [e2]
  · rw [List.getElem?_set_ne (fun h => e1 h.symm)]
    simp [e1]


/-- The grid after the first `m` steps of the row-filling loop. -/
theorem fillRows_upto (cols rows : Nat) (text : List Char) (hc : 0 < cols)
    (hn : text.length ≤ rows * cols) :
    ∀ m, m ≤ text.length →
      Shaped rows cols ((List.range m).foldl
        (fun g i => setCell g (i / cols) (i % cols) (text.getD i 'X')) (newGrid rows cols)) ∧
      ∀ i j, i < rows → j < cols →
        cell ((List.range m).foldl
          (fun g i => setCell g (i / cols) (i % cols) (text.getD i 'X')) (newGrid rows cols)) i j
          = if i * cols + j < m then text.getD (i * cols + j) 'X' else 'X' := by
  intro m
  induction m with
  | zero =>
    intro _
    refine ⟨shaped_newGrid rows cols, fun i j _ _ => ?_⟩
    simp [cell_newGrid]
  | succ m ih =>
    intro hm
    obtain ⟨hs, hcell⟩ := ih (by omega)
    rw [List.range_succ, List.foldl_append]
    simp only [List.foldl_cons, List.foldl_nil]
    refine ⟨shaped_setCell hs _ _ _, fun i j hi hj => ?_⟩
    have hrow : m / cols < rows := by
      apply Nat.div_lt_of_lt_mul
      rw [Nat.mul_comm]; omega
    have hcol : m % cols < cols := Nat.mod_lt _ hc
    rw [cell_setCell hs hrow hcol, hcell i j hi hj]
    have hdm := Nat.div_add_mod m cols
    by_cases e : i = m / cols ∧ j = m % cols
    · have : i * cols + j = m := by
        rw [e.1, e.2, Nat.mul_comm]; exact hdm
      rw [if_pos e, if_pos (by omega), this]
    · have hne : i * cols + j ≠ m := by
        intro hh
        apply e
        have h1 : (i * cols + j) / cols = i := by
          rw [Nat.mul_comm, Nat.mul_add_div hc, Nat.div_eq_of_lt hj, Nat.add_zero]
        have h2 : (i * cols + j) % cols = j := by
          rw [Nat.mul_comm, Nat.mul_add_mod, Nat.mod_eq_of_lt hj]
        rw [hh] at h1 h2
        exact ⟨h1.symm, h2.symm⟩
      rw [if_neg e]
      by_cases hlt : i * cols + j < m
      · rw [if_pos hlt, if_pos (by omega)]
      · rw [if_neg hlt, if_neg (by omega)]

theorem cell_fillRows (cols rows : Nat) (text : List Char) (hc : 0 < cols)
    (hn : text.length ≤ rows * cols) (i j : Nat) (hi : i < rows) (hj : j < cols) :
    cell (fillRows cols text (newGrid rows cols)) i j = text.getD (i * cols + j) 'X' := by
  have := (fillRows_upto cols rows text hc hn text.length (Nat.le_refl _)).2 i j hi hj
  rw [fillRows, this]
  split
  · rfl
  · rw [List.getD_eq_getElem?_getD, List.getElem?_eq_none (by omega)]
    rfl

/-- Rounding up: `rows = (n + cols - 1) / cols` rows hold `n` characters, with fewer than
`cols` cells to spare. -/
theorem rows_bounds (n cols : Nat) (hc : 0 < cols) :
    n ≤ (n + cols - 1) / cols * cols ∧ (n + cols - 1) / cols * cols < n + cols := by
  have h1 := Nat.div_add_mod (n + cols - 1) cols
  have h2 := Nat.mod_lt (n + cols - 1) hc
  rw [Nat.mul_comm] at h1
  omega

theorem rows_of_mul (rows cols : Nat) (hc : 0 < cols) :
    (rows * cols + cols - 1) / cols = rows := by
  have h : rows * cols + cols - 1 = (cols - 1) + cols * rows := by
    rw [Nat.mul_comm]; omega
  rw [h, Nat.add_mul_div_left _ _ hc, Nat.div_eq_of_lt (by omega), Nat.zero_add]

/-- Reading a grid row by row lists the cells in the order of their row-major index. -/
theorem rowMajor_read (f : Nat → Char) (cols : Nat) :
    ∀ rows, ((List.range rows).flatMap fun i => (List.range cols).map fun j => f (i * cols + j))
      = (List.range (rows * cols)).map f := by
  intro rows
  induction rows with
  | zero => simp
  | succ r ih =>
    rw [List.range_succ, List.flatMap_append, ih, Nat.succ_mul, List.range_add, List.map_append]
    simp [List.map_map, Function.comp_def]

theorem map_getD_range (text : List Char) (d : Char) :
    ∀ k, (List.range (text.length + k)).map (fun m => text.getD m d)
      = text ++ List.replicate k d := by
  intro k
  apply List.ext_getElem
  · simp
  · intro i h1 h2
    simp only [List.getElem_map, List.getElem_range]
    by_cases hi : i < text.length
    · rw [List.getElem_append_left hi, List.getD_eq_getElem?_getD, List.getElem?_eq_getElem hi]
      rfl
    · rw [List.getElem_append_right (by omega), List.getElem_replicate,
        List.getD_eq_getElem?_getD, List.getElem?_eq_none (by omega)]
      rfl


/-- One column of the column-filling loop: the first `r` rows of column `idx` receive the next
`r` characters of the cipher. -/
theorem fillStep_column (cipher : List Char) (rows cols idx : Nat) (hidx : idx < cols) :
    ∀ (r : Nat) (g : Grid) (k : Nat), r ≤ rows → k + r ≤ cipher.length → Shaped rows cols g →
      ((List.range r).foldl (fillStep cipher idx) (g, k)).2 = k + r ∧
      Shaped rows cols ((List.range r).foldl (fillStep cipher idx) (g, k)).1 ∧
      ∀ i c, i < rows → c < cols →
        cell ((List.range r).foldl (fillStep cipher idx) (g, k)).1 i c
          = if c = idx ∧ i < r then cipher.getD (k + i) 'X' else cell g i c := by
  intro r
  induction r with
  | zero =>
    intro g k _ _ hs
    refine ⟨rfl, hs, fun i c _ _ => ?_⟩
    simp
  | succ r ih =>
    intro g k hr hk hs
    obtain ⟨h1, h2, h3⟩ := ih g k (by omega) (by omega) hs
    rw [List.range_succ, List.foldl_append]
    simp only [List.foldl_cons, List.foldl_nil]
    have hlt : ((List.range r).foldl (fillStep cipher idx) (g, k)).2 < cipher.length := by
      rw [h1]; omega
    rw [fillStep, if_pos hlt]
    refine ⟨by simp only [h1]; omega, shaped_setCell h2 _ _ _, fun i c hi hc => ?_⟩
    rw [cell_setCell h2 (by omega) hidx, h3 i c hi hc, h1]
    by_cases e : i = r ∧ c = idx
    · rw [if_pos e, if_pos ⟨e.2, by omega⟩, e.1]
    · rw [if_neg e]
      by_cases e2 : c = idx ∧ i < r
      · rw [if_pos e2, if_pos ⟨e2.1, by omega⟩]
      · rw [if_neg e2, if_neg (by intro h; apply e2; exact ⟨h.1, by omega⟩)]

/-- The column-filling loop: column `c` of the grid receives the block of `rows` cipher
characters whose number is the position of `c` in `order`. -/
theorem fillColumns_spec (cipher : List Char) (rows cols : Nat) :
    ∀ (order : List Nat) (g : Grid) (k : Nat), order.Nodup → (∀ c, c ∈ order → c < cols) →
      k + order.length * rows ≤ cipher.length → Shaped rows cols g →
      Shaped rows cols (fillColumns cipher rows order (g, k)).1 ∧
      ∀ i c, i < rows → c < cols →
        cell (fillColumns cipher rows order (g, k)).1 i c
          = if c ∈ order then cipher.getD (k + order.indexOf c * rows + i) 'X'
            else cell g i c := by
  intro order
  induction order with
  | nil =>
    intro g k _ _ _ hs
    refine ⟨hs, fun i c _ _ => ?_⟩
    simp [fillColumns]
  | cons idx rest ih =>
    intro g k hnd hlt hk hs
    have hidx : idx < cols := hlt idx (List.mem_cons_self _ _)
    have hk2 : k + rows + rest.length * rows ≤ cipher.length := by
      simp only [List.length_cons, Nat.succ_mul] at hk; omega
    obtain ⟨h1, h2, h3⟩ := fillStep_column cipher rows cols idx hidx rows g k (Nat.le_refl _)
      (by omega) hs
    have hnd2 := List.nodup_cons.1 hnd
    have hstate : (List.range rows).foldl (fillStep cipher idx) (g, k)
        = (((List.range rows).foldl (fillStep cipher idx) (g, k)).1, k + rows) := by
      rw [← h1]
    obtain ⟨g1, g2⟩ := ih ((List.range rows).foldl (fillStep cipher idx) (g, k)).1 (k + rows)
      hnd2.2 (fun c hc => hlt c (List.mem_cons_of_mem _ hc)) hk2 h2
    have hunf : fillColumns cipher rows (idx :: rest) (g, k)
        = fillColumns cipher rows rest
            (((List.range rows).foldl (fillStep cipher idx) (g, k)).1, k + rows) := by
      rw [fillColumns, List.foldl_cons, hstate]
      rfl
    rw [hunf]
    refine ⟨g1, fun i c hi hc => ?_⟩
    rw [g2 i c hi hc]
    by_cases e : c = idx
    · subst e
      rw [if_neg hnd2.1, if_pos (List.mem_cons_self _ _), h3 i c hi hc, if_pos ⟨rfl, hi⟩,
        List.indexOf_cons_self]
      simp
    · have hio : (idx :: rest).indexOf c = rest.indexOf c + 1 :=
        List.indexOf_cons_ne _ (fun h => e h.symm)
      by_cases e2 : c ∈ rest
      · rw [if_pos e2, if_pos (List.mem_cons_of_mem _ e2), hio, Nat.succ_mul]
        congr 1; omega
      · rw [if_neg e2, if_neg (by simp [e, e2]), h3 i c hi hc, if_neg (fun h => e h.1)]


theorem length_flatMap_const {α : Type} (f : α → List Char) (r : Nat)
    (hf : ∀ x, (f x).length = r) :
    ∀ l : List α, (l.flatMap f).length = l.length * r := by
  intro l
  induction l with
  | nil => simp
  | cons x xs ih => rw [List.flatMap_cons, List.length_append, hf, ih, List.length_cons,
      Nat.succ_mul, Nat.add_comm]

/-- In a concatenation of blocks of `r` characters, block number `indexOf c l` is `f c`. -/
theorem getD_flatMap_block (f : Nat → List Char) (r : Nat) (hf : ∀ x, (f x).length = r)
    (d : Char) (i : Nat) (hi : i < r) :
    ∀ (l : List Nat) (c : Nat), c ∈ l →
      (l.flatMap f).getD (l.indexOf c * r + i) d = (f c).getD i d := by
  intro l
  induction l with
  | nil => intro c hc; simp at hc
  | cons x xs ih =>
    intro c hc
    simp only [List.getD_eq_getElem?_getD, List.flatMap_cons] at ih ⊢
    by_cases e : c = x
    · subst e
      rw [List.indexOf_cons_self, Nat.zero_mul, Nat.zero_add,
        List.getElem?_append_left (by rw [hf]; exact hi)]
    · have hc2 : c ∈ xs := by
        rcases List.mem_cons.1 hc with h | h
        · exact absurd h e
        · exact h
      rw [List.indexOf_cons_ne _ (fun h => e h.symm),
        List.getElem?_append_right (by rw [hf, Nat.succ_mul]; omega)]
      have : (xs.indexOf c + 1) * r + i - (f x).length = xs.indexOf c * r + i := by
        rw [hf, Nat.succ_mul]; omega
      rw [this]
      exact ih c hc2

theorem strictWeak_keyLess (keyword : List Char) : StrictWeak (keyLess keyword) := by
  refine ⟨fun a => ?_, fun a b c h1 h2 => ?_, fun a b c h => ?_⟩
  · simp [keyLess]
  · simp only [keyLess, decide_eq_true_eq] at *
    exact Char.lt_trans h1 h2
  · simp only [keyLess, decide_eq_true_eq] at *
    by_cases h2 : labelAt keyword a < labelAt keyword c
    · exact Or.inl h2
    · right
      have h3 : labelAt keyword c ≤ labelAt keyword a := Char.not_lt.1 h2
      exact lt_of_le_of_lt h3 h

theorem columnOrder_perm {sort : SortFn} (hs : StdSort sort) (keyword : List Char) :
    (columnOrder sort keyword).Perm (List.range keyword.length) :=
  hs.perm _ _ (strictWeak_keyLess keyword)

theorem columnOrder_lt {sort : SortFn} (hs : StdSort sort) (keyword : List Char) (c : Nat)
    (hc : c ∈ columnOrder sort keyword) : c < keyword.length :=
  List.mem_range.1 ((columnOrder_perm hs keyword).mem_iff.1 hc)

theorem columnOrder_mem {sort : SortFn} (hs : StdSort sort) (keyword : List Char) (c : Nat)
    (hc : c < keyword.length) : c ∈ columnOrder sort keyword :=
  (columnOrder_perm hs keyword).mem_iff.2 (List.mem_range.2 hc)

theorem columnOrder_nodup {sort : SortFn} (hs : StdSort sort) (keyword : List Char) :
    (columnOrder sort keyword).Nodup :=
  (columnOrder_perm hs keyword).nodup_iff.2 (List.nodup_range _)

theorem columnOrder_length {sort : SortFn} (hs : StdSort sort) (keyword : List Char) :
    (columnOrder sort keyword).length = keyword.length := by
  rw [(columnOrder_perm hs keyword).length_eq, List.length_range]

/-- The output of `transpositionEncrypt`: the columns of the padded text in the sorted order. -/
theorem transpositionEncrypt_eq {sort : SortFn} (hs : StdSort sort) (keyword text : List Char)
    (hk : keyword ≠ []) :
    transpositionEncrypt sort keyword text
      = (columnOrder sort keyword).flatMap fun idx =>
          (List.range ((text.length + keyword.length - 1) / keyword.length)).map fun i =>
            text.getD (i * keyword.length + idx) 'X' := by
  have hc : 0 < keyword.length := List.length_pos.2 hk
  unfold transpositionEncrypt
  simp only
  apply List.flatMap_congr
  intro idx hidx
  apply List.map_congr_left
  intro i hi
  exact cell_fillRows _ _ text hc (rows_bounds text.length keyword.length hc).1 i idx
    (List.mem_range.1 hi) (columnOrder_lt hs keyword idx hidx)

theorem transpositionEncrypt_length {sort : SortFn} (hs : StdSort sort)
    (keyword text : List Char) (hk : keyword ≠ []) :
    (transpositionEncrypt sort keyword text).length
      = (text.length + keyword.length - 1) / keyword.length * keyword.length := by
  rw [transpositionEncrypt_eq hs keyword text hk,
    length_flatMap_const _ ((text.length + keyword.length - 1) / keyword.length) (by simp),
    columnOrder_length hs, Nat.mul_comm]

/-- The output of `transpositionDecrypt` on a cipher that fills its grid exactly: cell `(i, c)`
is read from block `indexOf c order` of the cipher, at offset `i`. -/
theorem transpositionDecrypt_eq {sort : SortFn} (hs : StdSort sort) (keyword cipher : List Char)
    (hk : keyword ≠ []) (rows : Nat) (hlen : cipher.length = rows * keyword.length) :
    transpositionDecrypt sort keyword cipher
      = (List.range (rows * keyword.length)).map fun m =>
          cipher.getD ((columnOrder sort keyword).indexOf (m % keyword.length) * rows
            + m / keyword.length) 'X' := by
  have hc : 0 < keyword.length := List.length_pos.2 hk
  have hrows : (cipher.length + keyword.length - 1) / keyword.length = rows := by
    rw [hlen, rows_of_mul rows _ hc]
  unfold transpositionDecrypt
  simp only [hrows]
  obtain ⟨_, h2⟩ := fillColumns_spec cipher rows keyword.length (columnOrder sort keyword)
    (newGrid rows keyword.length) 0 (columnOrder_nodup hs keyword) (columnOrder_lt hs keyword)
    (by rw [columnOrder_length hs, hlen, Nat.mul_comm]; omega) (shaped_newGrid _ _)
  rw [← rowMajor_read]
  apply List.flatMap_congr
  intro i hi
  apply List.map_congr_left
  intro j hj
  have hj2 := List.mem_range.1 hj
  rw [h2 i j (List.mem_range.1 hi) hj2, if_pos (columnOrder_mem hs keyword j hj2)]
  have h1 : (i * keyword.length + j) % keyword.length = j := by
    rw [Nat.mul_comm, Nat.mul_add_mod, Nat.mod_eq_of_lt hj2]
  have h3 : (i * keyword.length + j) / keyword.length = i := by
    rw [Nat.mul_comm, Nat.mul_add_div hc, Nat.div_eq_of_lt hj2, Nat.add_zero]
  rw [h1, h3, Nat.zero_add]

/-- Decryption after encryption gives the text followed by the filler that completed the last
row of the grid. -/
theorem transposition_decrypt_encrypt {sort : SortFn} (hs : StdSort sort)
    (keyword text : List Char) (hk : keyword ≠ []) :
    transpositionDecrypt sort keyword (transpositionEncrypt sort keyword text)
      = text ++ List.replicate
          ((text.length + keyword.length - 1) / keyword.length * keyword.length - text.length)
          'X' := by
  have hc : 0 < keyword.length := List.length_pos.2 hk
  have hb := rows_bounds text.length keyword.length hc
  rw [transpositionDecrypt_eq hs keyword _ hk _ (transpositionEncrypt_length hs keyword text hk)]
  rw [← map_getD_range text 'X', Nat.add_sub_cancel' hb.1]
  apply List.map_congr_left
  intro m hm
  have hm2 := List.mem_range.1 hm
  have hcol : m % keyword.length < keyword.length := Nat.mod_lt _ hc
  have hrow : m / keyword.length < (text.length + keyword.length - 1) / keyword.length := by
    apply Nat.div_lt_of_lt_mul
    rw [Nat.mul_comm]; exact hm2
  rw [transpositionEncrypt_eq hs keyword text hk,
    getD_flatMap_block _ _ (by simp) 'X' _ hrow _ _ (columnOrder_mem hs keyword _ hcol)]
  simp only [List.getD_eq_getElem?_getD]
  rw [List.getElem?_map, List.getElem?_range hrow]
  simp only [Option.map_some', Option.getD_some]
  rw [Nat.mul_comm, Nat.div_add_mod]

/-! ## The sorting routine: lemmas -/

theorem insertSorted_perm (comp : Nat → Nat → Bool) (x : Nat) :
    ∀ l : List Nat, (insertSorted comp x l).Perm (x :: l) := by
  intro l
  induction l with
  | nil => exact List.Perm.refl _
  | cons y ys ih =>
    rw [insertSorted]
    split
    · exact List.Perm.refl _
    · exact (List.Perm.cons y ih).trans (List.Perm.swap x y ys)

theorem foldl_insertSorted_perm (comp : Nat → Nat → Bool) :
    ∀ l acc : List Nat,
      (l.foldl (fun acc x => insertSorted comp x acc) acc).Perm (l ++ acc) := by
  intro l
  induction l with
  | nil => intro acc; exact List.Perm.refl _
  | cons x xs ih =>
    intro acc
    rw [List.foldl_cons]
    refine (ih _).trans ?_
    refine (List.Perm.append_left xs (insertSorted_perm comp x acc)).trans ?_
    exact List.perm_middle

theorem insertSorted_sorted (comp : Nat → Nat → Bool) (hw : StrictWeak comp) (x : Nat) :
    ∀ l : List Nat, l.Pairwise (fun a b => comp b a = false) →
      (insertSorted comp x l).Pairwise (fun a b => comp b a = false) := by
  obtain ⟨hirr, htrans, _⟩ := hw
  intro l
  induction l with
  | nil => intro _; simp [insertSorted]
  | cons y ys ih =>
    intro hl
    have hl2 := List.pairwise_cons.1 hl
    rw [insertSorted]
    split
    · rename_i hxy
      refine List.pairwise_cons.2 ⟨fun z hz => ?_, hl⟩
      cases hzx : comp z x
      · rfl
      · have hzy := htrans z x y hzx hxy
        rcases List.mem_cons.1 hz with h | h
        · rw [h, hirr] at hzy; exact absurd hzy (by simp)
        · rw [hl2.1 z h] at hzy; exact absurd hzy (by simp)
    · rename_i hxy
      refine List.pairwise_cons.2 ⟨fun z hz => ?_, ih hl2.2⟩
      rcases List.mem_cons.1 ((insertSorted_perm comp x ys).mem_iff.1 hz) with h | h
      · rw [h]; simpa using hxy
      · exact hl2.1 z h

theorem foldl_insertSorted_sorted (comp : Nat → Nat → Bool) (hw : StrictWeak comp) :
    ∀ l acc : List Nat, acc.Pairwise (fun a b => comp b a = false) →
      (l.foldl (fun acc x => insertSorted comp x acc) acc).Pairwise
        (fun a b => comp b a = false) := by
  intro l
  induction l with
  | nil => intro acc h; exact h
  | cons x xs ih =>
    intro acc h
    rw [List.foldl_cons]
    exact ih _ (insertSorted_sorted comp hw x acc h)

/-- Insertion sort does what the C++ standard asks of `std::sort`. -/
theorem stdSort_stableSort : StdSort stableSort where
  perm comp l _ := by
    have := foldl_insertSorted_perm comp l []
    rwa [List.append_nil] at this
  sorted comp l hw := foldl_insertSorted_sorted comp hw l [] List.Pairwise.nil

theorem columnOrder_sorted {sort : SortFn} (hs : StdSort sort) (keyword : List Char) :
    (columnOrder sort keyword).Pairwise
      (fun a b => labelAt keyword a ≤ labelAt keyword b) := by
  have := hs.sorted (keyLess keyword) (List.range keyword.length) (strictWeak_keyLess keyword)
  refine List.Pairwise.imp ?_ this
  intro a b h
  simp only [keyLess, decide_eq_false_iff_not] at h
  exact Char.not_lt.1 h

theorem labelAt_injective (keyword : List Char) (hd : keyword.Nodup) (a b : Nat)
    (ha : a < keyword.length) (hb : b < keyword.length)
    (h : labelAt keyword a = labelAt keyword b) : a = b := by
  have h1 : labelAt keyword a = keyword[a] := by
    simp [labelAt, List.getD_eq_getElem?_getD, List.getElem?_eq_getElem ha]
  have h2 : labelAt keyword b = keyword[b] := by
    simp [labelAt, List.getD_eq_getElem?_getD, List.getElem?_eq_getElem hb]
  rw [h1, h2] at h
  exact (List.Nodup.getElem_inj_iff hd).1 h

/-- For a keyword without repeated characters the sorted column order is unique: every routine
that meets `StdSort` returns the order that the stable insertion sort returns. -/
theorem columnOrder_unique {sort : SortFn} (hs : StdSort sort) (keyword : List Char)
    (hd : keyword.Nodup) : columnOrder sort keyword = columnOrder stableSort keyword := by
  have strict : ∀ {s : SortFn}, StdSort s →
      (columnOrder s keyword).Pairwise (fun a b => labelAt keyword a < labelAt keyword b) := by
    intro s h
    have h1 := (columnOrder_sorted h keyword).and ((columnOrder_perm h keyword).nodup_iff.2
      (List.nodup_range _))
    refine List.Pairwise.imp_of_mem ?_ h1
    intro a b ha hb hab
    rcases lt_or_eq_of_le hab.1 with h2 | h2
    · exact h2
    · exact absurd (labelAt_injective keyword hd a b (columnOrder_lt h keyword a ha)
        (columnOrder_lt h keyword b hb) h2) hab.2
  haveI : IsAntisymm Nat (fun a b => labelAt keyword a < labelAt keyword b) :=
    ⟨fun a b h1 h2 => absurd h2 (lt_asymm h1)⟩
  exact List.eq_of_perm_of_sorted
    ((columnOrder_perm hs keyword).trans (columnOrder_perm stdSort_stableSort keyword).symm)
    (strict hs) (strict stdSort_stableSort)

/-! ## The pipelines: lemmas -/

theorem mem_content_iff (c : Char) :
    c ∈ content ↔ (97 ≤ c.toNat ∧ c.toNat ≤ 122) ∨ (48 ≤ c.toNat ∧ c.toNat ≤ 57) := by
  constructor
  · have hall : ∀ d ∈ content,
        (97 ≤ d.toNat ∧ d.toNat ≤ 122) ∨ (48 ≤ d.toNat ∧ d.toNat ≤ 57) := by decide
    exact hall c
  · intro h
    have hc : c = Char.ofNat c.toNat := (Char.ofNat_toNat c).symm
    rw [hc]
    generalize c.toNat = n at h
    rcases h with ⟨h1, h2⟩ | ⟨h1, h2⟩ <;> interval_cases n <;> decide

/-- The Caesar shift keeps a text over `a..z0..9` in that alphabet when the shift is at least
`-26`: a lower-case letter goes to a lower-case letter and a digit is left alone. -/
theorem caesarShift_mem_content (shift : Int) (hs : -26 ≤ shift) (c : Char) (hc : c ∈ content) :
    caesarShift shift c ∈ content := by
  rcases (mem_content_iff c).1 hc with ⟨h1, h2⟩ | ⟨h1, h2⟩
  · have e := caesarShift_lower shift c h1 h2 hs
    apply (mem_content_iff _).2
    left
    omega
  · have ha : isalpha c = false := by
      cases h : isalpha c
      · rfl
      · have := (isalpha_iff c).1 h
        omega
    rw [caesarShift_other shift c ha]
    exact hc

theorem encodeChar_length (subKey label : List Char) (c : Char) (hc : c ∈ content) :
    (encodeChar (createPolybiusSquare subKey) label c).length = 2 := by
  obtain ⟨n, hn, rfl⟩ := List.getElem_of_mem hc
  have hn36 : n < 36 := by simpa [content_length] using hn
  have h : content[n] = content.getD n 'X' := by
    simp [List.getD_eq_getElem?_getD, List.getElem?_eq_getElem hn]
  rw [h, encodeChar_getD subKey label n hn36]
  rfl

theorem substitutionEncrypt_length (subKey label text : List Char)
    (htext : ∀ c, c ∈ text → c ∈ content) :
    (substitutionEncrypt text (createPolybiusSquare subKey) label).length = 2 * text.length := by
  induction text with
  | nil => rfl
  | cons c cs ih =>
    have h1 := encodeChar_length subKey label c (htext c (List.mem_cons_self _ _))
    have h2 := ih (fun c h => htext c (List.mem_cons_of_mem _ h))
    simp only [substitutionEncrypt, List.flatMap_cons, List.length_append, List.length_cons] at *
    omega


theorem reinsert_mem_length (buf : List Char) :
    ∀ (text : List Char) (bi : Nat) (r : List Char), reinsert buf text bi = some r →
      r.length = text.length ∧ ∀ c, c ∈ r → c ∈ text ∨ c ∈ buf := by
  intro text
  induction text with
  | nil =>
    intro bi r h
    simp only [reinsert, Option.some.injEq] at h
    subst h
    exact ⟨rfl, fun c hc => by simp at hc⟩
  | cons x xs ih =>
    intro bi r h
    rw [reinsert] at h
    split at h
    · rename_i hx
      cases hr : reinsert buf xs bi with
      | none => rw [hr] at h; simp at h
      | some r2 =>
        rw [hr] at h
        simp only [Option.map_some', Option.some.injEq] at h
        subst h
        obtain ⟨g1, g2⟩ := ih bi r2 hr
        refine ⟨by simp [g1], fun c hc => ?_⟩
        rcases List.mem_cons.1 hc with h | h
        · left; rw [h, hx]; exact List.mem_cons_self _ _
        · rcases g2 c h with h | h
          · left; exact List.mem_cons_of_mem _ h
          · right; exact h
    · cases hb : buf[bi]? with
      | none => rw [hb] at h; simp at h
      | some b =>
        rw [hb] at h
        simp only at h
        cases hr : reinsert buf xs (bi + 1) with
        | none => rw [hr] at h; simp at h
        | some r2 =>
          rw [hr] at h
          simp only [Option.map_some', Option.some.injEq] at h
          subst h
          obtain ⟨g1, g2⟩ := ih (bi + 1) r2 hr
          refine ⟨by simp [g1], fun c hc => ?_⟩
          rcases List.mem_cons.1 hc with h | h
          · right; rw [h]; exact List.getElem?_mem hb
          · rcases g2 c h with h | h
            · left; exact List.mem_cons_of_mem _ h
            · right; exact h

/-- The result of `blockReverse` has the length and the characters of its input. -/
theorem blockReverse_mem_length (text : List Char) (blockSize : Nat) (hb : 1 ≤ blockSize)
    (r : List Char) (h : blockReverse text blockSize = some r) :
    r.length = text.length ∧ ∀ c, c ∈ r → c ∈ text := by
  obtain ⟨buf, h1, _, h3, _⟩ := chunkLoop_spec blockSize hb
    ((text.filter (fun c => c ≠ ' ')).length + 1) [] (text.filter (fun c => c ≠ ' '))
    (Nat.le_refl _)
  simp only [List.nil_append, List.length_nil] at h1
  simp only [blockReverse, h1] at h
  obtain ⟨g1, g2⟩ := reinsert_mem_length buf text 0 r h
  refine ⟨g1, fun c hc => ?_⟩
  rcases g2 c hc with h | h
  · exact h
  · exact List.mem_of_mem_filter (h3 c h)

theorem rows_mul_of_dvd (n cols : Nat) (hc : 0 < cols) (hd : cols ∣ n) :
    (n + cols - 1) / cols * cols = n := by
  obtain ⟨q, rfl⟩ := hd
  rw [Nat.mul_comm cols q, rows_of_mul q cols hc]

/-- Decryption undoes encryption when the text fills the grid exactly. -/
theorem decrypt_encrypt_exact {sort : SortFn} (hs : StdSort sort)
    (keyword text : List Char) (hk : keyword ≠ []) (hd : keyword.length ∣ text.length) :
    transpositionDecrypt sort keyword (transpositionEncrypt sort keyword text) = text := by
  rw [transposition_decrypt_encrypt hs keyword text hk,
    rows_mul_of_dvd _ _ (List.length_pos.2 hk) hd, Nat.sub_self]
  simp

theorem pipeline_roundtrip_exists {sort : SortFn} (hs : StdSort sort) (text : List Char)
    (shift : Int) (blockSize : Nat) (label keyword : List Char)
    (htext : ∀ c, c ∈ text → c ∈ content) (h1 : -26 ≤ shift) (h2 : shift ≤ 26) (hb : 1 ≤ blockSize) (hlen : label.length = 6)
    (hd : label.Nodup) (hk : 2 ≤ keyword.length) (hdiv : keyword.length ∣ 2 * text.length) :
    ∃ cipher, mainEncrypt sort text shift blockSize label keyword = some cipher ∧
      mainDecrypt sort cipher shift blockSize label keyword = some text := by
  obtain ⟨rev, e1, e2⟩ := blockReverse_spec (caesarEncrypt text shift) blockSize hb
  obtain ⟨e3, e4⟩ := blockReverse_mem_length _ blockSize hb rev e1
  have hrev : ∀ c, c ∈ rev → c ∈ content := by
    intro c hc
    obtain ⟨d, hd1, hd2⟩ := List.mem_map.1 (e4 c hc)
    rw [← hd2]
    exact caesarShift_mem_content shift h1 d (htext d hd1)
  have hkne : keyword ≠ [] := by
    intro h; rw [h] at hk; simp at hk
  have hsub : keyword.length ∣
      (substitutionEncrypt rev (createPolybiusSquare label) label).length := by
    rw [substitutionEncrypt_length label label rev hrev, e3]
    simpa [caesarEncrypt] using hdiv
  refine ⟨transpositionEncrypt sort keyword
    (substitutionEncrypt rev (createPolybiusSquare label) label),
    by simp only [mainEncrypt, e1], ?_⟩
  simp only [mainDecrypt]
  rw [decrypt_encrypt_exact hs keyword _ hkne hsub,
    decrypt_encrypt_substitution rev label hrev hlen hd, e2]
  simp only [caesar_roundtrip_small text shift h1 h2]

theorem transpositionEncrypt_nil (sort : SortFn) (keyword : List Char) :
    transpositionEncrypt sort keyword [] = [] := by
  have h : (keyword.length - 1) / keyword.length = 0 := by
    rcases Nat.eq_zero_or_pos keyword.length with h | h
    · rw [h]
    · exact Nat.div_eq_of_lt (by omega)
  simp [transpositionEncrypt, h]

theorem transpositionDecrypt_nil (sort : SortFn) (keyword : List Char) :
    transpositionDecrypt sort keyword [] = [] := by
  have h : (keyword.length - 1) / keyword.length = 0 := by
    rcases Nat.eq_zero_or_pos keyword.length with h | h
    · rw [h]
    · exact Nat.div_eq_of_lt (by omega)
  simp [transpositionDecrypt, h]

theorem encodeChar_not_mem (subKey label : List Char) (c : Char) (hc : c ∉ content) :
    encodeChar (createPolybiusSquare subKey) label c = [] := by
  have hne : ∀ n, n < 36 → ¬ cell (createPolybiusSquare subKey) (n / 6) (n % 6) = c := by
    intro n hn h
    rw [cell_square subKey n hn] at h
    apply hc
    rw [← h, List.getD_eq_getElem?_getD,
      List.getElem?_eq_getElem (by rw [content_length]; exact hn)]
    exact List.getElem_mem _
  have hcell : ∀ i j, i < 6 → j < 6 → ¬ cell (createPolybiusSquare subKey) i j = c := by
    intro i j hi hj
    have := hne (6 * i + j) (by omega)
    rwa [Nat.mul_add_div (by omega), Nat.div_eq_of_lt hj, Nat.add_zero, Nat.mul_add_mod,
      Nat.mod_eq_of_lt hj] at this
  unfold encodeChar
  rw [List.flatMap_eq_nil_iff]
  intro i hi
  rw [List.flatMap_eq_nil_iff]
  intro j hj
  rw [if_neg (hcell i j (List.mem_range.1 hi) (List.mem_range.1 hj))]

theorem pad_of_not_dvd (n cols : Nat) (hc : 0 < cols) (hd : ¬ cols ∣ n) :
    (n + cols - 1) / cols * cols - n = cols - n % cols := by
  have hb := rows_bounds n cols hc
  have hr : 0 < n % cols := Nat.pos_of_ne_zero (fun h => hd (Nat.dvd_of_mod_eq_zero h))
  have hlt := Nat.mod_lt n hc
  have hdm := Nat.div_add_mod n cols
  rw [Nat.mul_comm] at hdm
  generalize (n + cols - 1) / cols = rows at hb
  generalize n / cols = q at hdm
  generalize n % cols = r at hr hlt hdm
  have h1 : q < rows := by
    by_contra h
    have := Nat.mul_le_mul_right cols (Nat.le_of_not_lt h)
    omega
  have h2 : rows < q + 2 := by
    by_contra h
    have := Nat.mul_le_mul_right cols (Nat.le_of_not_lt h)
    rw [Nat.add_mul] at this
    omega
  have h3 : rows = q + 1 := by omega
  subst h3
  rw [Nat.add_mul] at hb ⊢
  omega

theorem getElem?_eq_some_getD {α : Type} (l : List α) (i : Nat) (d : α) (h : i < l.length) :
    l[i]? = some (l.getD i d) := by
  rw [List.getD_eq_getElem?_getD, List.getElem?_eq_getElem h]
  rfl

/-- Position `k * rows + i` of the output of `transpositionEncrypt` holds the character of the
padded text at row `i` and column `order[k]`. -/
theorem transpositionEncrypt_getElem {sort : SortFn} (hs : StdSort sort)
    (keyword text : List Char) (hk : keyword ≠ []) (k i : Nat) (hki : k < keyword.length)
    (hi : i < (text.length + keyword.length - 1) / keyword.length) :
    ∃ c x, (columnOrder sort keyword)[k]? = some c ∧
      (text ++ List.replicate
        ((text.length + keyword.length - 1) / keyword.length * keyword.length - text.length)
        'X')[i * keyword.length + c]? = some x ∧
      (transpositionEncrypt sort keyword text)[
        k * ((text.length + keyword.length - 1) / keyword.length) + i]? = some x := by
  have hc : 0 < keyword.length := List.length_pos.2 hk
  have hb := rows_bounds text.length keyword.length hc
  have hlen := columnOrder_length hs keyword
  have hk2 : k < (columnOrder sort keyword).length := by rw [hlen]; exact hki
  have hcl : (columnOrder sort keyword)[k] < keyword.length :=
    columnOrder_lt hs keyword _ (List.getElem_mem _)
  have hidx : i * keyword.length + (columnOrder sort keyword)[k]
      < (text.length + keyword.length - 1) / keyword.length * keyword.length := by
    have := Nat.mul_le_mul_right keyword.length (Nat.succ_le_of_lt hi)
    rw [Nat.succ_mul] at this
    omega
  refine ⟨(columnOrder sort keyword)[k],
    text.getD (i * keyword.length + (columnOrder sort keyword)[k]) 'X',
    List.getElem?_eq_getElem hk2, ?_, ?_⟩
  · have hm := map_getD_range text 'X'
      ((text.length + keyword.length - 1) / keyword.length * keyword.length - text.length)
    rw [Nat.add_sub_cancel' hb.1] at hm
    rw [← hm, List.getElem?_map, List.getElem?_range hidx]
    rfl
  · have hlt : k * ((text.length + keyword.length - 1) / keyword.length) + i
        < (transpositionEncrypt sort keyword text).length := by
      rw [transpositionEncrypt_length hs keyword text hk]
      have := Nat.mul_le_mul_right ((text.length + keyword.length - 1) / keyword.length)
        (Nat.succ_le_of_lt hki)
      rw [Nat.succ_mul] at this
      rw [Nat.mul_comm _ keyword.length]
      omega
    rw [getElem?_eq_some_getD _ _ 'X' hlt, transpositionEncrypt_eq hs keyword text hk]
    have hio : (columnOrder sort keyword).indexOf (columnOrder sort keyword)[k] = k :=
      List.indexOf_getElem (columnOrder_nodup hs keyword) k hk2
    have := getD_flatMap_block
      (fun idx => (List.range ((text.length + keyword.length - 1) / keyword.length)).map
        fun i => text.getD (i * keyword.length + idx) 'X')
      ((text.length + keyword.length - 1) / keyword.length) (by simp) 'X' i hi
      (columnOrder sort keyword) _ (List.getElem_mem hk2)
    rw [hio] at this
    rw [this, List.getD_eq_getElem?_getD, List.getElem?_map, List.getElem?_range hi]
    rfl


/-! ## Substitution: further lemmas -/

theorem labelFind_mem (label : List Char) (a : Char) (ha : a ∈ label) :
    labelFind label a = some (label.indexOf a) := by
  rw [labelFind, if_pos ha]

theorem labelFind_not_mem (label : List Char) (a : Char) (ha : a ∉ label) :
    labelFind label a = none := by
  rw [labelFind, if_neg ha]

theorem decodePair_mem (square : Grid) (label : List Char) (a b : Char) (ha : a ∈ label)
    (hb : b ∈ label) :
    decodePair square label a b = [cell square (label.indexOf a) (label.indexOf b)] := by
  simp only [decodePair, labelFind_mem label a ha, labelFind_mem label b hb]

theorem decodePair_not_mem (square : Grid) (label : List Char) (a b : Char)
    (h : a ∉ label ∨ b ∉ label) : decodePair square label a b = [] := by
  rcases h with h | h
  · simp only [decodePair, labelFind_not_mem label a h]
  · simp only [decodePair, labelFind_not_mem label b h]
    cases labelFind label a <;> rfl

/-- On an input of even length whose characters all occur in the label, every pair gives one
character of the square. -/
theorem substitutionDecrypt_even (square : Grid) (label : List Char) :
    ∀ (n : Nat) (text : List Char), text.length = 2 * n → (∀ c, c ∈ text → c ∈ label) →
      (substitutionDecrypt text square label).length = n ∧
      ∀ i, i < n → (substitutionDecrypt text square label)[i]? =
        some (cell square (label.indexOf (text.getD (2 * i) (Char.ofNat 0)))
          (label.indexOf (text.getD (2 * i + 1) (Char.ofNat 0)))) := by
  intro n
  induction n with
  | zero =>
    intro text hl _
    have : text = [] := List.length_eq_zero.1 (by simpa using hl)
    subst this
    exact ⟨rfl, fun i hi => absurd hi (Nat.not_lt_zero _)⟩
  | succ n ih =>
    intro text hl hm
    match text, hl, hm with
    | [], hl, _ => simp at hl
    | [a], hl, _ => simp at hl; omega
    | a :: b :: rest, hl, hm =>
      have hr : rest.length = 2 * n := by simp at hl; omega
      obtain ⟨h1, h2⟩ := ih rest hr (fun c hc =>
        hm c (List.mem_cons_of_mem _ (List.mem_cons_of_mem _ hc)))
      have ha : a ∈ label := hm a (List.mem_cons_self _ _)
      have hb : b ∈ label := hm b (List.mem_cons_of_mem _ (List.mem_cons_self _ _))
      rw [substitutionDecrypt, decodePair_mem square label a b ha hb]
      refine ⟨by simp [h1], fun i hi => ?_⟩
      cases i with
      | zero => simp
      | succ i =>
        have := h2 i (by omega)
        have e1 : 2 * (i + 1) = 2 * i + 1 + 1 := by omega
        rw [e1]
        simp only [List.singleton_append, List.getElem?_cons_succ, this, List.getD_cons_succ]

/-- An input of odd length is decoded like the input followed by the zero character. -/
theorem substitutionDecrypt_odd (square : Grid) (label : List Char) :
    ∀ (n : Nat) (text : List Char), text.length = 2 * n + 1 →
      substitutionDecrypt text square label
        = substitutionDecrypt (text ++ [Char.ofNat 0]) square label := by
  intro n
  induction n with
  | zero =>
    intro text hl
    match text, hl with
    | [a], _ => simp [substitutionDecrypt]
    | [], hl => simp at hl
    | _ :: _ :: _, hl => simp at hl
  | succ n ih =>
    intro text hl
    match text, hl with
    | [], hl => simp at hl
    | [a], hl => simp at hl
    | a :: b :: rest, hl =>
      have hr : rest.length = 2 * n + 1 := by simp at hl; omega
      rw [List.cons_append, List.cons_append, substitutionDecrypt, substitutionDecrypt,
        ih rest hr]



/-- The pairs of an input are decoded one by one: after a front part of even length the rest is
decoded on its own. -/
theorem substitutionDecrypt_append (square : Grid) (label : List Char) :
    ∀ (n : Nat) (front back : List Char), front.length = 2 * n →
      substitutionDecrypt (front ++ back) square label
        = substitutionDecrypt front square label ++ substitutionDecrypt back square label := by
  intro n
  induction n with
  | zero =>
    intro front back hl
    have : front = [] := List.length_eq_zero.1 (by simpa using hl)
    subst this
    simp [substitutionDecrypt]
  | succ n ih =>
    intro front back hl
    match front, hl with
    | [], hl => simp at hl
    | [a], hl => simp at hl; omega
    | a :: b :: rest, hl =>
      have hr : rest.length = 2 * n := by simp at hl; omega
      rw [List.cons_append, List.cons_append, substitutionDecrypt, substitutionDecrypt,
        ih rest back hr, List.append_assoc]

theorem content_nodup : content.Nodup := by decide

theorem content_getD_injective (a b : Nat) (ha : a < 36) (hb : b < 36)
    (h : content.getD a 'X' = content.getD b 'X') : a = b := by
  have h1 : a < content.length := by rw [content_length]; exact ha
  have h2 : b < content.length := by rw [content_length]; exact hb
  rw [List.getD_eq_getElem?_getD, List.getD_eq_getElem?_getD, List.getElem?_eq_getElem h1,
    List.getElem?_eq_getElem h2] at h
  exact (List.Nodup.getElem_inj_iff content_nodup).1 (by simpa using h)

theorem cell_square_row_col (subKey : List Char) (i j : Nat) (hi : i < 6) (hj : j < 6) :
    cell (createPolybiusSquare subKey) i j = content.getD (6 * i + j) 'X' := by
  have := cell_square subKey (6 * i + j) (by omega)
  rwa [Nat.mul_add_div (by omega), Nat.div_eq_of_lt hj, Nat.add_zero, Nat.mul_add_mod,
    Nat.mod_eq_of_lt hj] at this

/-- Every symbol of the alphabet is in one cell of the square and in no other. -/
theorem square_unique_cell (subKey : List Char) (c : Char) (hc : c ∈ content) :
    ∃ i j, i < 6 ∧ j < 6 ∧ cell (createPolybiusSquare subKey) i j = c ∧
      ∀ i2 j2, i2 < 6 → j2 < 6 → cell (createPolybiusSquare subKey) i2 j2 = c →
        i2 = i ∧ j2 = j := by
  obtain ⟨n, hn, rfl⟩ := List.getElem_of_mem hc
  have hn36 : n < 36 := by simpa [content_length] using hn
  have hg : content[n] = content.getD n 'X' := by
    simp [List.getD_eq_getElem?_getD, List.getElem?_eq_getElem hn]
  refine ⟨n / 6, n % 6, by omega, by omega, ?_, fun i2 j2 h1 h2 h3 => ?_⟩
  · rw [cell_square subKey n hn36, hg]
  · rw [cell_square_row_col subKey i2 j2 h1 h2, hg] at h3
    have := content_getD_injective _ _ (by omega) hn36 h3
    omega

theorem substitutionEncrypt_filter (subKey label text : List Char) :
    substitutionEncrypt text (createPolybiusSquare subKey) label
      = substitutionEncrypt (text.filter (fun c => decide (c ∈ content)))
          (createPolybiusSquare subKey) label := by
  induction text with
  | nil => rfl
  | cons c cs ih =>
    simp only [substitutionEncrypt] at ih ⊢
    by_cases hc : c ∈ content
    · rw [List.filter_cons_of_pos (by simpa using hc), List.flatMap_cons, List.flatMap_cons, ih]
    · rw [List.filter_cons_of_neg (by simpa using hc), List.flatMap_cons,
        encodeChar_not_mem subKey label c hc, List.nil_append, ih]

theorem isupper_not_mem_content (c : Char) (h : isupper c = true) : c ∉ content := by
  intro hc
  have h1 := (isupper_iff c).1 h
  have h2 := (mem_content_iff c).1 hc
  omega

theorem indexOf_getElem_le (l : List Char) :
    ∀ (i : Nat) (h : i < l.length), l.indexOf l[i] ≤ i := by
  induction l with
  | nil => intro i h; simp at h
  | cons x xs ih =>
    intro i h
    cases i with
    | zero => simp
    | succ i =>
      have hi : i < xs.length := by simpa using h
      simp only [List.getElem_cons_succ]
      by_cases e : xs[i] = x
      · rw [e, List.indexOf_cons_self]; omega
      · rw [List.indexOf_cons_ne _ (fun h => e h.symm)]
        have := ih i hi
        omega

theorem labelAt_eq_getElem (label : List Char) (i : Nat) (h : i < label.length) :
    labelAt label i = label[i] := by
  simp [labelAt, List.getD_eq_getElem?_getD, List.getElem?_eq_getElem h]

/-- With a repeated label character at positions `i < j`, the symbol of cell `(j, 0)` is encoded
to a pair that decodes to the symbol of a cell in an earlier row. -/
theorem duplicate_label_breaks (label : List Char) (hlen : label.length = 6) (i j : Nat)
    (hij : i < j) (hj : j < 6) (hdup : labelAt label i = labelAt label j) :
    content.getD (6 * j) 'X' ∈ content ∧
    substitutionDecrypt (substitutionEncrypt [content.getD (6 * j) 'X']
      (createPolybiusSquare label) label) (createPolybiusSquare label) label
      ≠ [content.getD (6 * j) 'X'] := by
  have hjl : j < label.length := by omega
  have hil : i < label.length := by omega
  have h0l : 0 < label.length := by omega
  constructor
  · rw [List.getD_eq_getElem?_getD,
      List.getElem?_eq_getElem (by rw [content_length]; omega)]
    exact List.getElem_mem _
  · have henc := encodeChar_getD label label (6 * j) (by omega)
    rw [Nat.mul_div_cancel_left _ (by omega : 0 < 6), Nat.mul_mod_right] at henc
    simp only [substitutionEncrypt, List.flatMap_cons, List.flatMap_nil, List.append_nil, henc,
      substitutionDecrypt]
    have hmj : labelAt label j ∈ label := by
      rw [labelAt_eq_getElem label j hjl]; exact List.getElem_mem _
    have hm0 : labelAt label 0 ∈ label := by
      rw [labelAt_eq_getElem label 0 h0l]; exact List.getElem_mem _
    rw [decodePair_mem _ label _ _ hmj hm0]
    have hrow : label.indexOf (labelAt label j) ≤ i := by
      rw [← hdup, labelAt_eq_getElem label i hil]
      exact indexOf_getElem_le label i hil
    have hcol : label.indexOf (labelAt label 0) = 0 := by
      have := indexOf_getElem_le label 0 h0l
      rw [labelAt_eq_getElem label 0 h0l]
      omega
    rw [hcol, cell_square_row_col label _ 0 (by omega) (by omega)]
    intro h
    have := content_getD_injective _ _ (by omega) (by omega) (List.cons.inj h).1
    omega

theorem exists_duplicate (label : List Char) (hd : ¬ label.Nodup) :
    ∃ i j, i < j ∧ j < label.length ∧ labelAt label i = labelAt label j := by
  rw [List.nodup_iff_injective_get] at hd
  simp only [Function.Injective, not_forall] at hd
  obtain ⟨a, b, hab, hne⟩ := hd
  have ha := a.2
  have hb := b.2
  have hv : a.1 ≠ b.1 := fun h => hne (Fin.ext h)
  have e : labelAt label a.1 = labelAt label b.1 := by
    rw [labelAt_eq_getElem label a.1 ha, labelAt_eq_getElem label b.1 hb]
    simpa using hab
  rcases Nat.lt_or_gt_of_ne hv with h | h
  · exact ⟨a.1, b.1, h, hb, e⟩
  · exact ⟨b.1, a.1, h, ha, e.symm⟩

/-! ## Block reversal: further lemmas -/

/-- A buffer shorter than the block size is reversed as a whole. -/
theorem chunkLoop_single (b : Nat) (s : List Char) (h : s.length < b) :
    chunkLoop b (s.length + 1) 0 s = some s.reverse := by
  by_cases hs : s = []
  · subst hs
    exact chunkLoop_exit b 0 0 [] (Nat.le_refl _)
  · have hpos := List.length_pos.2 hs
    obtain ⟨f, hf⟩ : ∃ f, s.length = f + 1 := ⟨s.length - 1, by omega⟩
    have h1 := chunkLoop_step b s.length [] s hs
    simp only [List.length_nil, List.nil_append, Nat.zero_add] at h1
    rw [h1, List.take_of_length_le (Nat.le_of_lt h), List.drop_of_length_le (Nat.le_of_lt h),
      List.append_nil, hf]
    exact chunkLoop_exit b f b _ (by simp; omega)

/-- The result of reinsertion has a space exactly where the text has one, when the buffer holds
no space. -/
theorem reinsert_layout (buf : List Char) (hbuf : ∀ c, c ∈ buf → c ≠ ' ') :
    ∀ (text : List Char) (bi : Nat) (r : List Char), reinsert buf text bi = some r →
      ∀ i : Nat, r[i]? = some ' ' ↔ text[i]? = some ' ' := by
  intro text
  induction text with
  | nil =>
    intro bi r h
    simp only [reinsert, Option.some.injEq] at h
    subst h
    intro i; rfl
  | cons x xs ih =>
    intro bi r h
    rw [reinsert] at h
    split at h
    · rename_i hx
      cases hr : reinsert buf xs bi with
      | none => rw [hr] at h; simp at h
      | some r2 =>
        rw [hr] at h
        simp only [Option.map_some', Option.some.injEq] at h
        subst h
        intro i
        cases i with
        | zero => simp [hx]
        | succ i => simpa using ih bi r2 hr i
    · rename_i hx
      cases hb : buf[bi]? with
      | none => rw [hb] at h; simp at h
      | some b =>
        rw [hb] at h
        simp only at h
        cases hr : reinsert buf xs (bi + 1) with
        | none => rw [hr] at h; simp at h
        | some r2 =>
          rw [hr] at h
          simp only [Option.map_some', Option.some.injEq] at h
          subst h
          have hbne : b ≠ ' ' := hbuf b (List.getElem?_mem hb)
          intro i
          cases i with
          | zero => simp [hx, hbne]
          | succ i => simpa using ih (bi + 1) r2 hr i

theorem reverseRange_length (buf : List Char) (i e : Nat) (h1 : i ≤ e) (h2 : e ≤ buf.length) :
    (reverseRange buf i e).length = buf.length := by
  simp only [reverseRange, List.length_append, List.length_take, List.length_reverse,
    List.length_drop]
  omega

/-- After `k` iterations of the chunk loop, while the loop is still running, the index is
`k * blockSize` and the buffer has kept its length. -/
theorem chunkLoop_iterate (b : Nat) (buf : List Char) :
    ∀ k, (∀ j, j < k → j * b < buf.length) →
      ∃ bufk : List Char, bufk.length = buf.length ∧
        ∀ fuel, chunkLoop b (fuel + k) 0 buf = chunkLoop b fuel (k * b) bufk := by
  intro k
  induction k with
  | zero =>
    intro _
    exact ⟨buf, rfl, fun fuel => by simp⟩
  | succ k ih =>
    intro hk
    obtain ⟨bufk, h1, h2⟩ := ih (fun j hj => hk j (by omega))
    have hlt : k * b < bufk.length := by rw [h1]; exact hk k (Nat.lt_succ_self k)
    refine ⟨reverseRange bufk (k * b) (min bufk.length (k * b + b)), ?_, fun fuel => ?_⟩
    · rw [reverseRange_length _ _ _ (by omega) (Nat.min_le_left _ _), h1]
    · have := h2 (fuel + 1)
      rw [Nat.add_assoc, Nat.add_comm 1 k] at this
      rw [this, chunkLoop, if_pos hlt, Nat.succ_mul]

/-- The number of iterations `T = ceil(n / b)` of the chunk loop: before iteration `T` the index
is below `n`, at iteration `T` it has reached `n`, and `T` is at most `n`. -/
theorem chunk_count (n b : Nat) (hb : 1 ≤ b) :
    (∀ j, j < (n + b - 1) / b → j * b < n) ∧ n ≤ (n + b - 1) / b * b ∧ (n + b - 1) / b ≤ n := by
  have hb0 : 0 < b := hb
  have h := rows_bounds n b hb0
  refine ⟨fun j hj => ?_, h.1, ?_⟩
  · have := Nat.mul_le_mul_right b (Nat.succ_le_of_lt hj)
    rw [Nat.succ_mul] at this
    omega
  · by_contra hc
    have h1 := Nat.mul_le_mul_right b (Nat.succ_le_of_lt (Nat.lt_of_not_le hc))
    have h2 := Nat.le_mul_of_pos_right n hb0
    rw [Nat.succ_mul] at h1
    omega

/-! ## Transposition: further lemmas -/

/-- Blocks of `r` values of `f`, laid out in the order of a list without repetition and each
addressed through the position of its element, make up the values of `f` in order. -/
theorem flatMap_blocks (f : Nat → Char) (r : Nat) :
    ∀ (l : List Nat) (k : Nat), l.Nodup →
      (l.flatMap fun idx => (List.range r).map fun i => f ((k + l.indexOf idx) * r + i))
        = (List.range (l.length * r)).map fun m => f (k * r + m) := by
  intro l
  induction l with
  | nil => intro k _; simp
  | cons x xs ih =>
    intro k hnd
    have hnd2 := List.nodup_cons.1 hnd
    have htail : (xs.flatMap fun idx =>
        (List.range r).map fun i => f ((k + (x :: xs).indexOf idx) * r + i))
        = xs.flatMap fun idx =>
            (List.range r).map fun i => f ((k + 1 + xs.indexOf idx) * r + i) := by
      apply List.flatMap_congr
      intro idx hidx
      have hne : x ≠ idx := fun h => hnd2.1 (h ▸ hidx)
      rw [List.indexOf_cons_ne _ hne]
      have e : k + (xs.indexOf idx + 1) = k + 1 + xs.indexOf idx := by omega
      rw [e]
    have hl : (x :: xs).length * r = r + xs.length * r := by
      rw [List.length_cons, Nat.add_mul, Nat.one_mul, Nat.add_comm]
    rw [List.flatMap_cons, htail, ih (k + 1) hnd2.2, List.indexOf_cons_self, Nat.add_zero, hl,
      List.range_add, List.map_append, List.map_map]
    congr 1
    apply List.map_congr_left
    intro m _
    simp only [Function.comp_apply]
    have e : (k + 1) * r + m = k * r + (r + m) := by
      rw [Nat.add_mul, Nat.one_mul]; omega
    rw [e]

/-- Encryption undoes decryption on a cipher that fills its grid exactly. -/
theorem encrypt_decrypt_exact {sort : SortFn} (hs : StdSort sort) (keyword cipher : List Char)
    (hk : keyword ≠ []) (rows : Nat) (hlen : cipher.length = rows * keyword.length) :
    transpositionEncrypt sort keyword (transpositionDecrypt sort keyword cipher) = cipher := by
  have hc : 0 < keyword.length := List.length_pos.2 hk
  have hdl : (transpositionDecrypt sort keyword cipher).length = rows * keyword.length := by
    rw [transpositionDecrypt_eq hs keyword cipher hk rows hlen]
    simp
  rw [transpositionEncrypt_eq hs keyword _ hk, hdl, rows_of_mul rows _ hc]
  have hinner : ((columnOrder sort keyword).flatMap fun idx => (List.range rows).map fun i =>
      (transpositionDecrypt sort keyword cipher).getD (i * keyword.length + idx) 'X')
      = (columnOrder sort keyword).flatMap fun idx => (List.range rows).map fun i =>
          cipher.getD ((0 + (columnOrder sort keyword).indexOf idx) * rows + i) 'X' := by
    apply List.flatMap_congr
    intro idx hidx
    apply List.map_congr_left
    intro i hi
    have hidx2 := columnOrder_lt hs keyword idx hidx
    have hi2 := List.mem_range.1 hi
    have hlt : i * keyword.length + idx < rows * keyword.length := by
      have := Nat.mul_le_mul_right keyword.length (Nat.succ_le_of_lt hi2)
      rw [Nat.succ_mul] at this
      omega
    rw [transpositionDecrypt_eq hs keyword cipher hk rows hlen, List.getD_eq_getElem?_getD,
      List.getElem?_map, List.getElem?_range hlt]
    have h1 : (i * keyword.length + idx) % keyword.length = idx := by
      rw [Nat.mul_comm, Nat.mul_add_mod, Nat.mod_eq_of_lt hidx2]
    have h3 : (i * keyword.length + idx) / keyword.length = i := by
      rw [Nat.mul_comm, Nat.mul_add_div hc, Nat.div_eq_of_lt hidx2, Nat.add_zero]
    simp only [Option.map_some', Option.getD_some, h1, h3, Nat.zero_add]
  rw [hinner, flatMap_blocks (fun m => cipher.getD m 'X') rows _ 0 (columnOrder_nodup hs keyword),
    columnOrder_length hs, Nat.mul_comm keyword.length rows, ← hlen]
  have := map_getD_range cipher 'X' 0
  simpa using this

theorem flatMap_singleton_map {α : Type} (g : α → Char) (l : List α) :
    (l.flatMap fun x => [g x]) = l.map g := by
  induction l with
  | nil => rfl
  | cons x xs ih => rw [List.flatMap_cons, ih, List.map_cons, List.singleton_append]

/-- With as many columns as characters the grid has one row, and the output lists the
characters of the text in the sorted column order. -/
theorem transpositionEncrypt_single_row {sort : SortFn} (hs : StdSort sort)
    (keyword text : List Char) (hk : keyword ≠ []) (hlen : text.length = keyword.length) :
    transpositionEncrypt sort keyword text
      = (columnOrder sort keyword).map fun idx => text.getD idx 'X' := by
  have hc : 0 < keyword.length := List.length_pos.2 hk
  have hrows : (text.length + keyword.length - 1) / keyword.length = 1 := by
    have := rows_of_mul 1 keyword.length hc
    rw [Nat.one_mul] at this
    rw [hlen]; exact this
  rw [transpositionEncrypt_eq hs keyword text hk, hrows]
  have h1 : List.range 1 = [0] := rfl
  simp only [h1, List.map_cons, List.map_nil, Nat.zero_mul, Nat.zero_add]
  exact flatMap_singleton_map _ _

theorem map_getD_perm {sort : SortFn} (hs : StdSort sort) (keyword text : List Char)
    (hlen : text.length = keyword.length) :
    ((columnOrder sort keyword).map fun idx => text.getD idx 'X').Perm text := by
  have h1 := List.Perm.map (fun idx => text.getD idx 'X') (columnOrder_perm hs keyword)
  have h2 := map_getD_range text 'X' 0
  rw [Nat.add_zero, hlen] at h2
  simp only [List.replicate_zero, List.append_nil] at h2
  rw [h2] at h1
  exact h1

theorem transpositionEncrypt_congr (s1 s2 : SortFn) (keyword text : List Char)
    (h : columnOrder s1 keyword = columnOrder s2 keyword) :
    transpositionEncrypt s1 keyword text = transpositionEncrypt s2 keyword text := by
  simp only [transpositionEncrypt, h]

theorem transpositionDecrypt_congr (s1 s2 : SortFn) (keyword cipher : List Char)
    (h : columnOrder s1 keyword = columnOrder s2 keyword) :
    transpositionDecrypt s1 keyword cipher = transpositionDecrypt s2 keyword cipher := by
  simp only [transpositionDecrypt, h]

theorem mainEncrypt_congr (s1 s2 : SortFn) (text : List Char) (shift : Int) (blockSize : Nat)
    (subKey keyword : List Char) (h : columnOrder s1 keyword = columnOrder s2 keyword) :
    mainEncrypt s1 text shift blockSize subKey keyword
      = mainEncrypt s2 text shift blockSize subKey keyword := by
  simp only [mainEncrypt, transpositionEncrypt_congr s1 s2 keyword _ h]

theorem mainDecrypt_congr (s1 s2 : SortFn) (cipher : List Char) (shift : Int) (blockSize : Nat)
    (subKey keyword : List Char) (h : columnOrder s1 keyword = columnOrder s2 keyword) :
    mainDecrypt s1 cipher shift blockSize subKey keyword
      = mainDecrypt s2 cipher shift blockSize subKey keyword := by
  simp only [mainDecrypt, transpositionDecrypt_congr s1 s2 keyword _ h]

/-! ## The claims -/

/-- C1: for every text over the 36 symbols `a..z0..9` and every label of six distinct
characters, `substitutionDecrypt` applied to the output of `substitutionEncrypt`, with the
square of `createPolybiusSquare`, gives the text back. -/
theorem substitution_roundtrip (text label : List Char) (htext : ∀ c ∈ text, c ∈ content)
    (hlen : label.length = 6) (hd : label.Nodup) :
    substitutionDecrypt (substitutionEncrypt text (createPolybiusSquare label) label)
      (createPolybiusSquare label) label = text :=
  decrypt_encrypt_substitution text label htext hlen hd

/-- An instance of the substitution round trip: the text `attack2024` under the label `ADFGVX`. -/
theorem substitution_roundtrip_witness :
    substitutionDecrypt
      (substitutionEncrypt "attack2024".toList (createPolybiusSquare "ADFGVX".toList)
        "ADFGVX".toList)
      (createPolybiusSquare "ADFGVX".toList) "ADFGVX".toList = "attack2024".toList :=
  substitution_roundtrip "attack2024".toList "ADFGVX".toList (by decide) (by decide) (by decide)

/-- C2: for every non-empty keyword, repeated characters included, and every text whose length
is a multiple of the length of the keyword, `transpositionDecrypt` undoes
`transpositionEncrypt`, whatever order `std::sort` gives to equal keyword characters. -/
theorem transposition_roundtrip (sort : SortFn) (hs : StdSort sort) (keyword text : List Char)
    (hk : keyword ≠ []) (hd : keyword.length ∣ text.length) :
    transpositionDecrypt sort keyword (transpositionEncrypt sort keyword text) = text :=
  decrypt_encrypt_exact hs keyword text hk hd

/-- An instance of the transposition round trip: fifteen characters under the keyword `LEVEL`,
which repeats `L` and `E`. -/
theorem transposition_roundtrip_witness :
    transpositionDecrypt stableSort "LEVEL".toList
      (transpositionEncrypt stableSort "LEVEL".toList "attackatdawn247".toList)
      = "attackatdawn247".toList :=
  transposition_roundtrip stableSort stdSort_stableSort "LEVEL".toList "attackatdawn247".toList
    (by decide) (by decide)

/-- C3: for every text, with or without spaces, and every block size of at least one,
`blockReverse` returns a result, and `blockReverse` of that result with the same block size is
the text. -/
theorem blockReverse_involution (text : List Char) (blockSize : Nat) (hb : 1 ≤ blockSize) :
    (blockReverse text blockSize).bind (fun r => blockReverse r blockSize) = some text := by
  obtain ⟨r, h1, h2⟩ := blockReverse_spec text blockSize hb
  rw [h1, Option.some_bind, h2]

/-- An instance of the involution: a text with three spaces and block size 4. -/
theorem blockReverse_involution_witness :
    (blockReverse "meet me at 9".toList 4).bind (fun r => blockReverse r 4)
      = some "meet me at 9".toList :=
  blockReverse_involution "meet me at 9".toList 4 (by decide)

/-- C4: the round trip of the Caesar stage fails for a shift of magnitude above 26: with shift
27 the letter `z` is encrypted to `a`, and decryption, which shifts by `-27`, computes
`(0 - 27 + 26) % 26 = -1` and returns the character before `a`, code 96, not a letter. -/
theorem caesar_roundtrip_shift_27 :
    caesarEncrypt ['z'] 27 = ['a'] ∧
    caesarDecrypt (caesarEncrypt ['z'] 27) 27 = [Char.ofNat 96] ∧
    caesarDecrypt (caesarEncrypt ['z'] 27) 27 ≠ ['z'] := by
  decide

/-- C5: the decryption branch of `main` undoes the encryption branch for every text over
`a..z0..9`, every shift between `-26` and `26`, every block size of at least one, every label of
six distinct characters and every keyword of at least two characters whose length divides twice
the length of the text. -/
theorem main_roundtrip (sort : SortFn) (hs : StdSort sort) (text : List Char) (shift : Int)
    (blockSize : Nat) (label keyword : List Char) (htext : ∀ c ∈ text, c ∈ content)
    (h1 : -26 ≤ shift) (h2 : shift ≤ 26) (hb : 1 ≤ blockSize) (hlen : label.length = 6)
    (hd : label.Nodup) (hk : 2 ≤ keyword.length) (hdiv : keyword.length ∣ 2 * text.length) :
    (mainEncrypt sort text shift blockSize label keyword).bind
      (fun cipher => mainDecrypt sort cipher shift blockSize label keyword) = some text := by
  obtain ⟨cipher, e1, e2⟩ :=
    pipeline_roundtrip_exists hs text shift blockSize label keyword htext h1 h2 hb hlen hd hk hdiv
  rw [e1, Option.some_bind, e2]

/-- An instance of the pipeline round trip: `attack2024`, shift `-7`, block size 4, label
`ADFGVX`, keyword `KEYS`. -/
theorem main_roundtrip_witness :
    (mainEncrypt stableSort "attack2024".toList (-7) 4 "ADFGVX".toList "KEYS".toList).bind
      (fun cipher => mainDecrypt stableSort cipher (-7) 4 "ADFGVX".toList "KEYS".toList)
      = some "attack2024".toList :=
  main_roundtrip stableSort stdSort_stableSort "attack2024".toList (-7) 4 "ADFGVX".toList
    "KEYS".toList (by decide) (by decide) (by decide) (by decide) (by decide) (by decide)
    (by decide) (by decide)

/-- C6: with text `HELLOWORLD`, shift 3, block size 4, label `ADFGVX` and keyword `KEY` the
encryption branch of `main` produces the empty ciphertext, because the square holds lower-case
letters only and `substitutionEncrypt` drops all ten upper-case letters; the decryption branch
then returns the empty text, which is not `HELLOWORLD` followed by any number of `X`. -/
theorem main_helloworld (sort : SortFn) :
    mainEncrypt sort "HELLOWORLD".toList 3 4 "ADFGVX".toList "KEY".toList = some [] ∧
    (mainEncrypt sort "HELLOWORLD".toList 3 4 "ADFGVX".toList "KEY".toList).bind
      (fun cipher => mainDecrypt sort cipher 3 4 "ADFGVX".toList "KEY".toList) = some [] ∧
    ∀ k, ([] : List Char) ≠ "HELLOWORLD".toList ++ List.replicate k 'X' := by
  have e1 : blockReverse (caesarEncrypt "HELLOWORLD".toList 3) 4 = some "OOHKURZRGO".toList := by
    decide
  have e2 : substitutionEncrypt "OOHKURZRGO".toList (createPolybiusSquare "ADFGVX".toList)
      "ADFGVX".toList = [] := by decide
  have e3 : mainEncrypt sort "HELLOWORLD".toList 3 4 "ADFGVX".toList "KEY".toList = some [] := by
    simp only [mainEncrypt, e1, e2, transpositionEncrypt_nil]
  have e4 : blockReverse (substitutionDecrypt [] (createPolybiusSquare "ADFGVX".toList)
      "ADFGVX".toList) 4 = some [] := by decide
  refine ⟨e3, ?_, fun k h => ?_⟩
  · rw [e3, Option.some_bind]
    simp only [mainDecrypt, transpositionDecrypt_nil, e4]
    rfl
  · have := congrArg List.length h
    simp at this

/-- C7: for every non-empty keyword and every text whose length is not a multiple of
`cols = len(keyword)`, `transpositionDecrypt` of the output of `transpositionEncrypt` is the
text followed by exactly `cols - len(text) mod cols` characters `X`: the padding stays. -/
theorem transposition_padding (sort : SortFn) (hs : StdSort sort) (keyword text : List Char)
    (hk : keyword ≠ []) (hd : ¬ keyword.length ∣ text.length) :
    transpositionDecrypt sort keyword (transpositionEncrypt sort keyword text)
      = text ++ List.replicate (keyword.length - text.length % keyword.length) 'X' := by
  rw [transposition_decrypt_encrypt hs keyword text hk,
    pad_of_not_dvd _ _ (List.length_pos.2 hk) hd]

/-- An instance of the padding: seven characters under the keyword `KEY` come back with two
characters `X` appended. -/
theorem transposition_padding_witness :
    transpositionDecrypt stableSort "KEY".toList
      (transpositionEncrypt stableSort "KEY".toList "abcdefg".toList)
      = "abcdefgXX".toList :=
  transposition_padding stableSort stdSort_stableSort "KEY".toList "abcdefg".toList
    (by decide) (by decide)

/-- C8: for a shift below `-26` the dividend `c - base + shift + 26` is negative and the
truncating `%` of C++ gives a negative remainder: with shift `-27` the letter `a` goes to the
character with code 96, which is not a letter, while the shift reduced modulo 26, which is 25,
sends `a` to `z`. -/
theorem caesarEncrypt_shift_minus_27 :
    caesarEncrypt ['a'] (-27) = [Char.ofNat 96] ∧
    isalpha (Char.ofNat 96) = false ∧
    caesarEncrypt ['a'] ((-27) % 26) = ['z'] ∧
    caesarEncrypt ['a'] (-27) ≠ caesarEncrypt ['a'] ((-27) % 26) := by
  decide


/-- C9, as amended: for every non-empty keyword and every text, with `cols = len(keyword)` and
`rows = ceil(len(text) / cols)`, the output of `transpositionEncrypt` has length `rows * cols`
and its character at index `k * rows + i` is cell `(i, order[k])` of the row-major grid of the
text padded with `X`, where `order` is the list `0 .. cols - 1` as `std::sort` leaves it: a
rearrangement of `0 .. cols - 1` in ascending order of the keyword characters. When the keyword
has no repeated character this is the stable order; the order among equal keyword characters is
whatever the sorting routine produces. -/
theorem transpositionEncrypt_layout (sort : SortFn) (hs : StdSort sort)
    (keyword text : List Char) (hk : keyword ≠ []) :
    (transpositionEncrypt sort keyword text).length
      = (text.length + keyword.length - 1) / keyword.length * keyword.length ∧
    (columnOrder sort keyword).Perm (List.range keyword.length) ∧
    (columnOrder sort keyword).Pairwise (fun a b => labelAt keyword a ≤ labelAt keyword b) ∧
    (keyword.Nodup → columnOrder sort keyword = columnOrder stableSort keyword) ∧
    ∀ k i, k < keyword.length → i < (text.length + keyword.length - 1) / keyword.length →
      ∃ c x, (columnOrder sort keyword)[k]? = some c ∧
        (text ++ List.replicate
          ((text.length + keyword.length - 1) / keyword.length * keyword.length - text.length)
          'X')[i * keyword.length + c]? = some x ∧
        (transpositionEncrypt sort keyword text)[
          k * ((text.length + keyword.length - 1) / keyword.length) + i]? = some x :=
  ⟨transpositionEncrypt_length hs keyword text hk, columnOrder_perm hs keyword,
    columnOrder_sorted hs keyword, columnOrder_unique hs keyword,
    fun k i hki hi => transpositionEncrypt_getElem hs keyword text hk k i hki hi⟩

/-- An instance of the layout: twelve characters under the keyword `LEVEL` give three rows of
five cells. -/
theorem transpositionEncrypt_layout_witness :
    (transpositionEncrypt stableSort "LEVEL".toList "attackatdawn".toList).length
      = ("attackatdawn".toList.length + "LEVEL".toList.length - 1) / "LEVEL".toList.length
          * "LEVEL".toList.length :=
  (transpositionEncrypt_layout stableSort stdSort_stableSort "LEVEL".toList
    "attackatdawn".toList (by decide)).1

set_option maxRecDepth 100000 in
/-- C9 as stated fails on the program built with GNU libstdc++: for a keyword of seventeen equal
characters the stable order is `0 .. 16`, but `std::sort` partitions the seventeen indices once
and leaves them in the order `8, 16, 15, ..., 9, 0, 7, 6, ..., 1`, which is still a sorted
rearrangement; the first character of the output is then cell `(0, 8)` of the grid, not cell
`(0, 0)`. -/
theorem transpositionEncrypt_tie_order :
    columnOrder stableSort "AAAAAAAAAAAAAAAAA".toList = List.range 17 ∧
    columnOrder gnuSort "AAAAAAAAAAAAAAAAA".toList
      = [8, 16, 15, 14, 13, 12, 11, 10, 9, 0, 7, 6, 5, 4, 3, 2, 1] ∧
    transpositionEncrypt gnuSort "AAAAAAAAAAAAAAAAA".toList "abcdefghijklmnopq".toList
      = "iqponmlkjahgfedcb".toList ∧
    (transpositionEncrypt gnuSort "AAAAAAAAAAAAAAAAA".toList "abcdefghijklmnopq".toList)[0]?
      ≠ "abcdefghijklmnopq".toList[0 * 17 +
          (columnOrder stableSort "AAAAAAAAAAAAAAAAA".toList).getD 0 0]? := by
  decide

/-- C10, as amended: `substitutionEncrypt` signals no error; a character outside `a..z0..9`,
such as a space, contributes nothing to the output, which is the output for the text without
that character. -/
theorem substitutionEncrypt_skips (subKey label front back : List Char) (c : Char)
    (hc : c ∉ content) :
    substitutionEncrypt (front ++ c :: back) (createPolybiusSquare subKey) label
      = substitutionEncrypt (front ++ back) (createPolybiusSquare subKey) label := by
  simp only [substitutionEncrypt, List.flatMap_append, List.flatMap_cons,
    encodeChar_not_mem subKey label c hc, List.nil_append]

/-- An instance of the skipped character: the space between `a` and `b`. -/
theorem substitutionEncrypt_skips_witness :
    substitutionEncrypt ("a".toList ++ ' ' :: "b".toList)
        (createPolybiusSquare "ADFGVX".toList) "ADFGVX".toList
      = substitutionEncrypt ("a".toList ++ "b".toList)
        (createPolybiusSquare "ADFGVX".toList) "ADFGVX".toList :=
  substitutionEncrypt_skips "ADFGVX".toList "ADFGVX".toList "a".toList "b".toList ' '
    (by decide)

/-- C10 as stated fails: on the text `a b`, which contains a space, `substitutionEncrypt`
returns `AAAD`, the output for `ab`; the space is dropped and nothing is signalled. -/
theorem substitutionEncrypt_drops_space :
    ' ' ∈ "a b".toList ∧
    substitutionEncrypt "a b".toList (createPolybiusSquare "ADFGVX".toList) "ADFGVX".toList
      = "AAAD".toList ∧
    substitutionEncrypt "ab".toList (createPolybiusSquare "ADFGVX".toList) "ADFGVX".toList
      = "AAAD".toList := by
  decide

/-- C11, as amended: `substitutionDecrypt` signals no error. The consecutive pairs of the input
are decoded one by one, wherever they stand: a pair whose two characters occur in `label`
contributes `square[row][col]`, `row` and `col` being the first positions of the two characters
in `label`, and a pair with a character that does not occur in `label` is skipped and
contributes nothing, whatever comes before and after it. So on an input of even length whose
characters all occur in `label` the output has exactly `len(text) / 2` characters, one for each
pair. The empty input gives the empty output, and an input of odd length is decoded like the
input followed by the zero character that ends the string. -/
theorem substitutionDecrypt_pairs (square : Grid) (label : List Char) :
    (∀ text : List Char, text.length % 2 = 0 → (∀ c ∈ text, c ∈ label) →
      (substitutionDecrypt text square label).length = text.length / 2 ∧
      ∀ i, i < text.length / 2 → ∃ a b, text[2 * i]? = some a ∧ text[2 * i + 1]? = some b ∧
        (substitutionDecrypt text square label)[i]?
          = some (cell square (label.indexOf a) (label.indexOf b))) ∧
    (∀ (a b : Char) (rest : List Char), a ∉ label ∨ b ∉ label →
      substitutionDecrypt (a :: b :: rest) square label
        = substitutionDecrypt rest square label) ∧
    (∀ text : List Char, text.length % 2 = 1 →
      substitutionDecrypt text square label
        = substitutionDecrypt (text ++ [Char.ofNat 0]) square label) ∧
    substitutionDecrypt [] square label = [] ∧
    (∀ front back : List Char, front.length % 2 = 0 →
      substitutionDecrypt (front ++ back) square label
        = substitutionDecrypt front square label ++ substitutionDecrypt back square label) ∧
    (∀ (front : List Char) (a b : Char) (back : List Char), front.length % 2 = 0 →
      a ∉ label ∨ b ∉ label →
      substitutionDecrypt (front ++ a :: b :: back) square label
        = substitutionDecrypt (front ++ back) square label) ∧
    (∀ (front : List Char) (a b : Char) (back : List Char), front.length % 2 = 0 →
      a ∈ label → b ∈ label →
      substitutionDecrypt (front ++ a :: b :: back) square label
        = substitutionDecrypt front square label
          ++ cell square (label.indexOf a) (label.indexOf b)
            :: substitutionDecrypt back square label) := by
  have happ : ∀ front back : List Char, front.length % 2 = 0 →
      substitutionDecrypt (front ++ back) square label
        = substitutionDecrypt front square label ++ substitutionDecrypt back square label :=
    fun front back h =>
      substitutionDecrypt_append square label (front.length / 2) front back (by omega)
  refine ⟨fun text heven hmem => ?_, fun a b rest h => ?_, fun text hodd => ?_, rfl, happ,
    fun front a b back hf h => ?_, fun front a b back hf ha hb => ?_⟩
  · have hl : text.length = 2 * (text.length / 2) := by omega
    obtain ⟨h1, h2⟩ := substitutionDecrypt_even square label (text.length / 2) text hl hmem
    refine ⟨h1, fun i hi => ?_⟩
    have ha : 2 * i < text.length := by omega
    have hb : 2 * i + 1 < text.length := by omega
    refine ⟨text[2 * i], text[2 * i + 1], List.getElem?_eq_getElem ha,
      List.getElem?_eq_getElem hb, ?_⟩
    rw [h2 i hi, List.getD_eq_getElem?_getD, List.getD_eq_getElem?_getD,
      List.getElem?_eq_getElem ha, List.getElem?_eq_getElem hb]
    rfl
  · rw [substitutionDecrypt, decodePair_not_mem square label a b h, List.nil_append]
  · exact substitutionDecrypt_odd square label (text.length / 2) text (by omega)
  · rw [happ front (a :: b :: back) hf, happ front back hf, substitutionDecrypt,
      decodePair_not_mem square label a b h, List.nil_append]
  · rw [happ front (a :: b :: back) hf, substitutionDecrypt,
      decodePair_mem square label a b ha hb, List.singleton_append]

/-- An instance of the decoding of pairs under the label `ADFGVX`: `AAADXX` has three pairs and
gives three characters, and in `ADAZAD` the middle pair `AZ` is skipped, so that the output is
the output for `ADAD`, which is `bb`. -/
theorem substitutionDecrypt_pairs_witness :
    (substitutionDecrypt "AAADXX".toList (createPolybiusSquare "ADFGVX".toList)
      "ADFGVX".toList).length = "AAADXX".toList.length / 2 ∧
    substitutionDecrypt ("AD".toList ++ 'A' :: 'Z' :: "AD".toList)
        (createPolybiusSquare "ADFGVX".toList) "ADFGVX".toList
      = substitutionDecrypt ("AD".toList ++ "AD".toList)
        (createPolybiusSquare "ADFGVX".toList) "ADFGVX".toList :=
  ⟨((substitutionDecrypt_pairs (createPolybiusSquare "ADFGVX".toList) "ADFGVX".toList).1
      "AAADXX".toList (by decide) (by decide)).1,
    (substitutionDecrypt_pairs (createPolybiusSquare "ADFGVX".toList)
      "ADFGVX".toList).2.2.2.2.2.1 "AD".toList 'A' 'Z' "AD".toList (by decide)
      (Or.inr (by decide))⟩

/-- C11 as stated fails: on `AAA`, of odd length, and on `AZAD`, where `Z` is not in the label
`ADFGVX`, `substitutionDecrypt` returns an output (`a` and `b`), and nothing is signalled; the
output for `AZAD` has one character, not `len(text) / 2 = 2`. -/
theorem substitutionDecrypt_silent :
    "AAA".toList.length % 2 = 1 ∧
    substitutionDecrypt "AAA".toList (createPolybiusSquare "ADFGVX".toList) "ADFGVX".toList
      = "a".toList ∧
    'Z' ∉ "ADFGVX".toList ∧
    substitutionDecrypt "AZAD".toList (createPolybiusSquare "ADFGVX".toList) "ADFGVX".toList
      = "b".toList := by
  decide

/-- C12: for every text and every block size greater than the length of the text,
`blockReverse` returns a result whose non-space characters are the non-space characters of the
text in reversed order; for a text without spaces the result is the reversed text. -/
theorem blockReverse_single_block (text : List Char) (blockSize : Nat)
    (h : text.length < blockSize) :
    ∃ r, blockReverse text blockSize = some r ∧
      r.filter (fun c => c ≠ ' ') = (text.filter (fun c => c ≠ ' ')).reverse ∧
      (' ' ∉ text → r = text.reverse) := by
  have hle : (text.filter (fun c => c ≠ ' ')).length ≤ text.length := List.length_filter_le _ _
  have hloop := chunkLoop_single blockSize (text.filter (fun c => c ≠ ' ')) (by omega)
  have hns : ∀ c, c ∈ (text.filter (fun c => c ≠ ' ')).reverse → c ≠ ' ' := fun c hc => by
    simpa using (List.mem_filter.1 (List.mem_reverse.1 hc)).2
  obtain ⟨r, g1, g2, _⟩ := filter_reinsert text [] _ hns (List.length_reverse _)
  simp only [List.nil_append, List.length_nil] at g1
  have hr : blockReverse text blockSize = some r := by
    simp only [blockReverse, hloop, g1]
  refine ⟨r, hr, g2, fun hsp => ?_⟩
  have hft : text.filter (fun c => c ≠ ' ') = text := by
    apply List.filter_eq_self.2
    intro c hc
    have : c ≠ ' ' := fun e => hsp (e ▸ hc)
    simpa using this
  have hlen := (reinsert_mem_length _ text 0 r g1).1
  have hfl : (r.filter (fun c => c ≠ ' ')).length = r.length := by
    rw [g2, List.length_reverse, hft, hlen]
  rw [← hft, ← g2]
  exact (List.filter_eq_self.2 (List.filter_length_eq_length.1 hfl)).symm

/-- An instance of the single block: five characters without a space and block size 8. -/
theorem blockReverse_single_block_witness :
    blockReverse "abcde".toList 8 = some "edcba".toList := by
  obtain ⟨r, h1, _, h3⟩ := blockReverse_single_block "abcde".toList 8 (by decide)
  rw [h1, h3 (by decide)]
  rfl

/-- C13: for every keyword of at least two characters and every text as long as the keyword,
`transpositionEncrypt` uses one row and no padding: the output is as long as the text, its
`k`-th character is `text[order[k]]` for the column order `order` that `std::sort` leaves, and
the output is a rearrangement of the text. -/
theorem transpositionEncrypt_one_row (sort : SortFn) (hs : StdSort sort)
    (keyword text : List Char) (hk : 2 ≤ keyword.length) (hlen : text.length = keyword.length) :
    (text.length + keyword.length - 1) / keyword.length = 1 ∧
    (transpositionEncrypt sort keyword text).length = text.length ∧
    (∀ k, k < text.length → ∃ c x, (columnOrder sort keyword)[k]? = some c ∧
      text[c]? = some x ∧ (transpositionEncrypt sort keyword text)[k]? = some x) ∧
    (transpositionEncrypt sort keyword text).Perm text := by
  have hkne : keyword ≠ [] := by
    intro h; rw [h] at hk; simp at hk
  have hc : 0 < keyword.length := by omega
  have hrows : (text.length + keyword.length - 1) / keyword.length = 1 := by
    have := rows_of_mul 1 keyword.length hc
    rw [Nat.one_mul] at this
    rw [hlen]; exact this
  have heq := transpositionEncrypt_single_row hs keyword text hkne hlen
  have hol := columnOrder_length hs keyword
  refine ⟨hrows, ?_, fun k hk2 => ?_, ?_⟩
  · rw [heq, List.length_map, hol, hlen]
  · have hko : k < (columnOrder sort keyword).length := by rw [hol, ← hlen]; exact hk2
    have hcl : (columnOrder sort keyword)[k] < text.length := by
      rw [hlen]; exact columnOrder_lt hs keyword _ (List.getElem_mem _)
    refine ⟨(columnOrder sort keyword)[k], text[(columnOrder sort keyword)[k]],
      List.getElem?_eq_getElem hko, List.getElem?_eq_getElem hcl, ?_⟩
    rw [heq, List.getElem?_map, List.getElem?_eq_getElem hko, Option.map_some',
      List.getD_eq_getElem?_getD, List.getElem?_eq_getElem hcl]
    rfl
  · rw [heq]
    exact map_getD_perm hs keyword text hlen

/-- An instance of the single row: the text `abc` under the keyword `KEY`, whose sorted column
order is `1, 0, 2`. -/
theorem transpositionEncrypt_one_row_witness :
    (transpositionEncrypt stableSort "KEY".toList "abc".toList).Perm "abc".toList :=
  (transpositionEncrypt_one_row stableSort stdSort_stableSort "KEY".toList "abc".toList
    (by decide) (by decide)).2.2.2

/-- C14: for every text and every block size of at least one, `blockReverse` returns a result
of the length of the text that has a space at an index exactly when the text has one there. -/
theorem blockReverse_layout (text : List Char) (blockSize : Nat) (hb : 1 ≤ blockSize) :
    ∃ r, blockReverse text blockSize = some r ∧ r.length = text.length ∧
      ∀ i : Nat, r[i]? = some ' ' ↔ text[i]? = some ' ' := by
  obtain ⟨buf, h1, _, h3, _⟩ := chunkLoop_spec blockSize hb
    ((text.filter (fun c => c ≠ ' ')).length + 1) [] (text.filter (fun c => c ≠ ' '))
    (Nat.le_refl _)
  simp only [List.nil_append, List.length_nil] at h1
  obtain ⟨r, hr, _⟩ := blockReverse_spec text blockSize hb
  have hre : reinsert buf text 0 = some r := by
    simpa only [blockReverse, h1] using hr
  have hns : ∀ c, c ∈ buf → c ≠ ' ' := fun c hc => by
    simpa using (List.mem_filter.1 (h3 c hc)).2
  exact ⟨r, hr, (reinsert_mem_length buf text 0 r hre).1, reinsert_layout buf hns text 0 r hre⟩

/-- An instance of the layout: a text with two spaces and block size 3. -/
theorem blockReverse_layout_witness :
    (blockReverse "ab cd ef".toList 3).map List.length = some "ab cd ef".toList.length := by
  obtain ⟨r, h1, h2, _⟩ := blockReverse_layout "ab cd ef".toList 3 (by decide)
  rw [h1, Option.map_some', h2]

/-- C15: for every argument `subKey`, `createPolybiusSquare` returns the same grid of six rows
of six cells, with `square[i][j]` the symbol number `6 * i + j` of `content`; every symbol of
`content` is in exactly one cell. -/
theorem createPolybiusSquare_grid (subKey other : List Char) :
    createPolybiusSquare subKey = createPolybiusSquare other ∧
    Shaped 6 6 (createPolybiusSquare subKey) ∧
    (∀ i j, i < 6 → j < 6 →
      content[6 * i + j]? = some (cell (createPolybiusSquare subKey) i j)) ∧
    (∀ c, c ∈ content → ∃ i j, i < 6 ∧ j < 6 ∧ cell (createPolybiusSquare subKey) i j = c ∧
      ∀ i2 j2, i2 < 6 → j2 < 6 → cell (createPolybiusSquare subKey) i2 j2 = c →
        i2 = i ∧ j2 = j) := by
  refine ⟨rfl, ?_, fun i j hi hj => ?_, fun c hc => square_unique_cell subKey c hc⟩
  · have h : createPolybiusSquare subKey = createPolybiusSquare [] := rfl
    rw [h]
    unfold Shaped
    decide
  · rw [cell_square_row_col subKey i j hi hj,
      getElem?_eq_some_getD content (6 * i + j) 'X' (by rw [content_length]; omega)]

/-- An instance of the grid: cell `(2, 3)` holds symbol number 15 of `content`, the letter `p`.
-/
theorem createPolybiusSquare_grid_witness :
    content[6 * 2 + 3]? = some (cell (createPolybiusSquare "ADFGVX".toList) 2 3) :=
  (createPolybiusSquare_grid "ADFGVX".toList []).2.2.1 2 3 (by decide) (by decide)

/-- C16: for every label of six characters in which some character occurs twice there is a text
of one symbol of `a..z0..9` that the substitution round trip does not give back: the repeated
character is decoded to its first position in the label. -/
theorem duplicate_label_not_invertible (label : List Char) (hlen : label.length = 6)
    (hd : ¬ label.Nodup) :
    ∃ c, c ∈ content ∧
      substitutionDecrypt (substitutionEncrypt [c] (createPolybiusSquare label) label)
        (createPolybiusSquare label) label ≠ [c] := by
  obtain ⟨i, j, hij, hj, hdup⟩ := exists_duplicate label hd
  obtain ⟨h1, h2⟩ := duplicate_label_breaks label hlen i j hij (by omega) hdup
  exact ⟨_, h1, h2⟩

/-- An instance of the failing round trip: the label `ADFGVA`, which repeats `A`. -/
theorem duplicate_label_not_invertible_witness :
    ∃ c, c ∈ content ∧
      substitutionDecrypt
        (substitutionEncrypt [c] (createPolybiusSquare "ADFGVA".toList) "ADFGVA".toList)
        (createPolybiusSquare "ADFGVA".toList) "ADFGVA".toList ≠ [c] :=
  duplicate_label_not_invertible "ADFGVA".toList (by decide) (by decide)

/-- C17: the padding of the transposition can corrupt the pipeline. With text `ab`, shift 0,
block size 4, label `ADFGVX` and keyword `KEY` the encryption branch of `main` gives the
ciphertext `DXAAAX`, and the decryption branch turns it into `9ab`, which is neither `ab` nor
`ab` followed by characters `X`: the two padding characters form the label pair `XX`, which
decodes to `9`. -/
theorem padding_corrupts_pipeline (sort : SortFn) (hs : StdSort sort) :
    mainEncrypt sort "ab".toList 0 4 "ADFGVX".toList "KEY".toList = some "DXAAAX".toList ∧
    mainDecrypt sort "DXAAAX".toList 0 4 "ADFGVX".toList "KEY".toList = some "9ab".toList ∧
    "9ab".toList ≠ "ab".toList ∧
    ∀ k, "9ab".toList ≠ "ab".toList ++ List.replicate k 'X' := by
  have ho := columnOrder_unique hs "KEY".toList (by decide)
  refine ⟨?_, ?_, by decide, fun k h => ?_⟩
  · rw [mainEncrypt_congr sort stableSort _ _ _ _ _ ho]
    decide
  · rw [mainDecrypt_congr sort stableSort _ _ _ _ _ ho]
    decide
  · have := congrArg List.head? h
    simp at this

/-- An instance of the corrupted round trip, with insertion sort as the sorting routine. -/
theorem padding_corrupts_pipeline_witness :
    mainDecrypt stableSort "DXAAAX".toList 0 4 "ADFGVX".toList "KEY".toList
      = some "9ab".toList :=
  (padding_corrupts_pipeline stableSort stdSort_stableSort).2.1

/-- C18: for every text and every label, `substitutionEncrypt` ignores the characters that are
not in `a..z0..9`: the output is the output for the text without them, and its length is twice
the number of characters of the text that are in `a..z0..9`; a text of upper-case letters is
encoded to the empty string. -/
theorem substitutionEncrypt_ignores (label text : List Char) :
    substitutionEncrypt text (createPolybiusSquare label) label
      = substitutionEncrypt (text.filter (fun c => decide (c ∈ content)))
          (createPolybiusSquare label) label ∧
    (substitutionEncrypt text (createPolybiusSquare label) label).length
      = 2 * (text.filter (fun c => decide (c ∈ content))).length ∧
    ((∀ c ∈ text, isupper c = true) →
      substitutionEncrypt text (createPolybiusSquare label) label = []) := by
  have hf := substitutionEncrypt_filter label label text
  refine ⟨hf, ?_, fun hup => ?_⟩
  · rw [hf]
    apply substitutionEncrypt_length
    intro c hc
    simpa using (List.mem_filter.1 hc).2
  · have hnil : text.filter (fun c => decide (c ∈ content)) = [] := by
      rw [List.filter_eq_nil_iff]
      intro c hc
      simpa using isupper_not_mem_content c (hup c hc)
    rw [hf, hnil]
    rfl

/-- An instance of the ignored characters: the upper-case text `HELLO` is encoded to the empty
string. -/
theorem substitutionEncrypt_ignores_witness :
    substitutionEncrypt "HELLO".toList (createPolybiusSquare "ADFGVX".toList) "ADFGVX".toList
      = [] :=
  (substitutionEncrypt_ignores "ADFGVX".toList "HELLO".toList).2.2 (by decide)

/-- C19: for every non-empty keyword and every cipher whose length is a multiple of the length
of the keyword, `transpositionEncrypt` undoes `transpositionDecrypt`; with the round trip in
the other direction and the preserved length, the two functions are inverse to each other on
such strings. -/
theorem transposition_right_inverse (sort : SortFn) (hs : StdSort sort)
    (keyword cipher : List Char) (hk : keyword ≠ []) (hd : keyword.length ∣ cipher.length) :
    transpositionEncrypt sort keyword (transpositionDecrypt sort keyword cipher) = cipher ∧
    transpositionDecrypt sort keyword (transpositionEncrypt sort keyword cipher) = cipher ∧
    (transpositionDecrypt sort keyword cipher).length = cipher.length ∧
    (transpositionEncrypt sort keyword cipher).length = cipher.length := by
  have hc : 0 < keyword.length := List.length_pos.2 hk
  obtain ⟨rows, hrows⟩ := hd
  have hlen : cipher.length = rows * keyword.length := by rw [hrows, Nat.mul_comm]
  refine ⟨encrypt_decrypt_exact hs keyword cipher hk rows hlen,
    decrypt_encrypt_exact hs keyword cipher hk ⟨rows, hrows⟩, ?_, ?_⟩
  · rw [transpositionDecrypt_eq hs keyword cipher hk rows hlen, List.length_map,
      List.length_range, hlen]
  · rw [transpositionEncrypt_length hs keyword cipher hk,
      rows_mul_of_dvd _ _ hc ⟨rows, hrows⟩]

/-- An instance of the right inverse: a cipher of ten characters under the keyword `LEVEL`. -/
theorem transposition_right_inverse_witness :
    transpositionEncrypt stableSort "LEVEL".toList
      (transpositionDecrypt stableSort "LEVEL".toList "0123456789".toList)
      = "0123456789".toList :=
  (transposition_right_inverse stableSort stdSort_stableSort "LEVEL".toList
    "0123456789".toList (by decide) (by decide)).1

/-- C20: for every text and every block size of at least one, `blockReverse` ends. With `n` the
number of non-space characters and `T = ceil(n / blockSize)`: after `k ≤ T` iterations the index
of the chunk loop is `k * blockSize` and the buffer still has `n` characters; the index is below
`n` before iteration `T` and has reached `n` at iteration `T`, so the loop ends after `T ≤ n`
iterations; and the reinsertion, which reads `buf[0], buf[1], ...` once for each non-space
character, finds every index inside the buffer of `n` characters and returns the result. -/
theorem blockReverse_terminates (text : List Char) (blockSize : Nat) (hb : 1 ≤ blockSize) :
    (∀ k, k ≤ ((text.filter (fun c => c ≠ ' ')).length + blockSize - 1) / blockSize →
      ∃ bufk : List Char, bufk.length = (text.filter (fun c => c ≠ ' ')).length ∧
        ∀ fuel, chunkLoop blockSize (fuel + k) 0 (text.filter (fun c => c ≠ ' '))
          = chunkLoop blockSize fuel (k * blockSize) bufk) ∧
    (∀ k, k < ((text.filter (fun c => c ≠ ' ')).length + blockSize - 1) / blockSize →
      k * blockSize < (text.filter (fun c => c ≠ ' ')).length) ∧
    (text.filter (fun c => c ≠ ' ')).length
      ≤ ((text.filter (fun c => c ≠ ' ')).length + blockSize - 1) / blockSize * blockSize ∧
    ((text.filter (fun c => c ≠ ' ')).length + blockSize - 1) / blockSize
      ≤ (text.filter (fun c => c ≠ ' ')).length ∧
    ∃ buf r, chunkLoop blockSize ((text.filter (fun c => c ≠ ' ')).length + 1) 0
        (text.filter (fun c => c ≠ ' ')) = some buf ∧
      buf.length = (text.filter (fun c => c ≠ ' ')).length ∧
      reinsert buf text 0 = some r ∧ blockReverse text blockSize = some r := by
  obtain ⟨c1, c2, c3⟩ := chunk_count (text.filter (fun c => c ≠ ' ')).length blockSize hb
  refine ⟨fun k hk => ?_, c1, c2, c3, ?_⟩
  · exact chunkLoop_iterate blockSize _ k (fun j hj => c1 j (by omega))
  · obtain ⟨buf, h1, h2, _, _⟩ := chunkLoop_spec blockSize hb
      ((text.filter (fun c => c ≠ ' ')).length + 1) [] (text.filter (fun c => c ≠ ' '))
      (Nat.le_refl _)
    simp only [List.nil_append, List.length_nil] at h1
    obtain ⟨r, hr, _⟩ := blockReverse_spec text blockSize hb
    have hre : reinsert buf text 0 = some r := by
      simpa only [blockReverse, h1] using hr
    exact ⟨buf, r, h1, h2, hre, hr⟩

/-- An instance of the termination: a text with seven non-space characters and block size 2. -/
theorem blockReverse_terminates_witness :
    (blockReverse "ab cde fg".toList 2).isSome = true := by
  obtain ⟨_, r, _, _, _, hr⟩ := (blockReverse_terminates "ab cde fg".toList 2 (by decide)).2.2.2.2
  rw [hr]
  rfl

end HybridCipher
